import Mathlib

/-!
Verification of the RL personalization core of the food-ordering repository
(`src/rl_learning_loop.py`, class `SimpleRLLoop`).

Modelling conventions for the shallow embedding:
* Python floats are modelled as exact rationals (`Rat`); the spec's round-trip
  and update contracts are all stated "modulo floating-point representation".
* Python dicts are modelled as insertion-ordered association lists (`Dict`):
  assignment to an existing key replaces the value in place, assignment to a
  fresh key appends at the end, matching CPython dict semantics.
* Python strings (used for the persistence key encoding) are modelled as
  `List Char` (`PyStr`), with `intStr` modelling `str(int)`, `parseInt`
  modelling `int(str)` — surrounding whitespace stripped, optional sign,
  underscore-grouped decimal digits — exactly on ASCII strings (Python
  additionally accepts non-ASCII decimal digits and whitespace, which no
  key produced by `str()` contains; theorems over arbitrary documents
  restrict keys to ASCII), and `splitChar` modelling `str.split(sep)` for a
  one-character separator.
* File I/O is modelled by explicit data: `save_state` takes a flag standing
  for write success, `load_state` takes a `FileRead` that is either a missing
  file, an unparseable file, or a parsed document (`RLStateFile`).
-/

namespace FoodRL

/-! ### Python strings: `str(int)`, `int()`, `split` -/

/-- Python strings as lists of characters. -/
abbrev PyStr := List Char

/-- The decimal digit character for `n % 10`-sized values. -/
def digitChar (n : Nat) : Char :=
  match n with
  | 0 => '0' | 1 => '1' | 2 => '2' | 3 => '3' | 4 => '4'
  | 5 => '5' | 6 => '6' | 7 => '7' | 8 => '8' | _ => '9'

/-- Numeric value of a digit character. -/
def charVal (c : Char) : Nat := c.toNat - 48

/-- Whether a character is a decimal digit. -/
def isDigitCh (c : Char) : Bool := decide (48 ≤ c.toNat) && decide (c.toNat ≤ 57)

/-- Decimal digits of a natural number, most significant first
(the characters of Python's `str(n)` for `n ≥ 0`). -/
def natDigs (n : Nat) : List Char :=
  if _h : n < 10 then [digitChar n]
  else natDigs (n / 10) ++ [digitChar (n % 10)]
termination_by n
decreasing_by exact Nat.div_lt_self (by omega) (by omega)

/-- Python's `str` on an integer. -/
def intStr (n : Int) : PyStr :=
  if n < 0 then '-' :: natDigs (-n).toNat else natDigs n.toNat

/-- Value of a digit string, most significant digit first. -/
def digitsVal (l : List Char) : Nat := l.foldl (fun a c => a * 10 + charVal c) 0

/-- The whitespace characters Python's `int()` strips from both ends of an
ASCII string: tab, newline, vertical tab, form feed, carriage return and
space (codes 9-13 and 32). -/
def isPySpace (c : Char) : Bool :=
  decide (9 ≤ c.toNat) && decide (c.toNat ≤ 13) || decide (c.toNat = 32)

/-- Strip the surrounding whitespace `int()` ignores. -/
def pyStrip (s : PyStr) : PyStr :=
  ((s.dropWhile isPySpace).reverse.dropWhile isPySpace).reverse

/-- The digit-group grammar of Python's `int()` after the optional sign: a
nonempty run of decimal digits in which each underscore stands between two
digits (`int("1_2_3") = 123`, while `"_1"`, `"1_"`, `"1__2"` all raise). -/
def digitsUnd : List Char → Bool
  | [] => false
  | [c] => isDigitCh c
  | c :: c2 :: rest =>
    isDigitCh c && (if c2 = '_' then digitsUnd rest else digitsUnd (c2 :: rest))

/-- Python's `int()` on an ASCII string: surrounding whitespace is
stripped, an optional single sign may follow, then underscore-grouped
decimal digits; any other shape raises `ValueError`, modelled as `none`.
(Python additionally accepts non-ASCII decimal digits and whitespace,
which no key produced by `str()` contains; theorems quantifying over
arbitrary documents therefore restrict keys to ASCII.) -/
def parseInt (s : PyStr) : Option Int :=
  match pyStrip s with
  | [] => none
  | c :: rest =>
    if c = '-' then
      if digitsUnd rest then some (-(digitsVal (rest.filter (fun x => x != '_')) : Int))
      else none
    else if c = '+' then
      if digitsUnd rest then some ((digitsVal (rest.filter (fun x => x != '_')) : Int))
      else none
    else if digitsUnd (c :: rest) then
      some ((digitsVal ((c :: rest).filter (fun x => x != '_')) : Int))
    else none

/-- ASCII strings: the domain on which `parseInt` models Python's `int()`
exactly. -/
def isAsciiStr (s : PyStr) : Bool := s.all (fun c => decide (c.toNat < 128))

/-- Python's `s.split(sep)` for a single-character separator. -/
def splitChar (sep : Char) : PyStr → List PyStr
  | [] => [[]]
  | c :: rest =>
    if c = sep then [] :: splitChar sep rest
    else
      match splitChar sep rest with
      | [] => [[c]]
      | h :: t => (c :: h) :: t

/-! ### The persistence key encoding (`save_state` / `load_state` key handling) -/

/-- `save_state`'s encoding of a `(user_id, item_id)` Q-value key:
`f"{user_id}_{item_id}"`. -/
def encodeQKey (u i : Int) : PyStr := intStr u ++ '_' :: intStr i

/-- `load_state`'s decoding of a Q-value key:
`user_id, item_id = map(int, key.split('_'))`, with any `ValueError` or
unpacking error (wrong number of parts) modelled as `none`. -/
def parseQKey (k : PyStr) : Option (Int × Int) :=
  match splitChar '_' k with
  | [a, b] =>
    match parseInt a, parseInt b with
    | some u, some i => some (u, i)
    | _, _ => none
  | _ => none

/-! ### Insertion-ordered dictionaries (Python `dict` / `defaultdict`) -/

/-- A Python dict: an association list in insertion order. -/
abbrev Dict (K V : Type) := List (K × V)

/-- `d.get(k)` without default: the value at `k`, if present. -/
def dlookup {K V : Type} [DecidableEq K] : Dict K V → K → Option V
  | [], _ => none
  | (k', v) :: rest, k => if k = k' then some v else dlookup rest k

/-- `d.get(k, dflt)`: lookup with a default, no entry materialized. -/
def dgetD {K V : Type} [DecidableEq K] (d : Dict K V) (k : K) (dflt : V) : V :=
  (dlookup d k).getD dflt

/-- `d[k] = v`: replace in place if the key is present, else append at the
end — CPython dict assignment order semantics.  A `defaultdict` read-then-add
update `d[k] += x` is `dinsert d k (dgetD d k 0 + x)`: materializing the
default and then storing also leaves the entry at this position. -/
def dinsert {K V : Type} [DecidableEq K] : Dict K V → K → V → Dict K V
  | [], k, v => [(k, v)]
  | (k', v') :: rest, k, v =>
    if k = k' then (k', v) :: rest else (k', v') :: dinsert rest k v

/-- The keys of a dict, in insertion order. -/
def dkeys {K V : Type} (d : Dict K V) : List K := d.map Prod.fst

/-! ### `SimpleRLLoop` state (`src/rl_learning_loop.py`, `__init__`)

The loop's learned state: Q-values keyed by `(user_id, item_id)`, nested
per-user preference weights, and global per-item popularity.  The
`state_action_history` list (only touched by `record_recommendation_shown`
and `get_state_summary`) and the constant hyperparameters `gamma` and
`epsilon` play no role in any property below and are not carried. -/

structure SimpleRLLoop where
  q_values : Dict (Int × Int) Rat
  user_preferences : Dict Int (Dict Int Rat)
  item_popularity : Dict Int Rat
  deriving DecidableEq

/-- `self.alpha = 0.1` — the learning rate set in `__init__`. -/
def alpha : Rat := 1 / 10

/-- The freshly constructed loop: all three mappings empty. -/
def SimpleRLLoop.init : SimpleRLLoop := ⟨[], [], []⟩

/-- `self.user_preferences[u][i] = v` on the nested defaultdict: the outer
read materializes `u`'s inner dict (empty if absent) and the assignment
stores the updated inner dict back at `u`'s position. -/
def dset2 (d : Dict Int (Dict Int Rat)) (u i : Int) (v : Rat) : Dict Int (Dict Int Rat) :=
  dinsert d u (dinsert (dgetD d u []) i v)

/-- `record_item_selected` (lines 73-88): `q_values[(u,i)] += alpha`,
`item_popularity[i] += 0.1`, `user_preferences[u][i] += 0.2`. -/
def record_item_selected (s : SimpleRLLoop) (user_id item_id : Int) : SimpleRLLoop :=
  { q_values := dinsert s.q_values (user_id, item_id)
      (dgetD s.q_values (user_id, item_id) 0 + alpha),
    item_popularity := dinsert s.item_popularity item_id
      (dgetD s.item_popularity item_id 0 + 1 / 10),
    user_preferences := dset2 s.user_preferences user_id item_id
      (dgetD (dgetD s.user_preferences user_id []) item_id 0 + 1 / 5) }

/-- One line item of a completed order: `{'item_id': ..., 'quantity': ...}`
(`quantity` defaults to 1 when absent; a well-typed order carries it). -/
structure OrderItem where
  item_id : Int
  quantity : Int
  deriving DecidableEq

/-- A completed order: `{'items': [...], 'total': ...}`. -/
structure OrderData where
  items : List OrderItem
  total : Rat
  deriving DecidableEq

/-- The reward computed by `record_order_completed` (lines 94-105):
base 1.0, +0.5 if the total exceeds 500, +0.3 if there are more than 3
line items. -/
def orderReward (order : OrderData) : Rat :=
  1 + (if order.total > 500 then 1 / 2 else 0)
    + (if order.items.length > 3 then 3 / 10 else 0)

/-- One iteration of the item loop of `record_order_completed`
(lines 110-127): `q_values[(u,i)] += reward`,
`item_popularity[i] += quantity * 0.5`, `user_preferences[u][i] += reward`. -/
def applyOrderItem (user_id : Int) (reward : Rat) (s : SimpleRLLoop) (it : OrderItem) :
    SimpleRLLoop :=
  { q_values := dinsert s.q_values (user_id, it.item_id)
      (dgetD s.q_values (user_id, it.item_id) 0 + reward),
    item_popularity := dinsert s.item_popularity it.item_id
      (dgetD s.item_popularity it.item_id 0 + it.quantity * (1 / 2)),
    user_preferences := dset2 s.user_preferences user_id it.item_id
      (dgetD (dgetD s.user_preferences user_id []) it.item_id 0 + reward) }

/-- The record returned by `record_order_completed` (lines 138-144);
`datetime.now().isoformat()` is passed in as `timestamp`. -/
structure OrderResult where
  user_id : Int
  reward : Rat
  items_count : Nat
  order_total : Rat
  timestamp : PyStr
  deriving DecidableEq

/-- `record_order_completed` (lines 90-144). -/
def record_order_completed (s : SimpleRLLoop) (user_id : Int) (order : OrderData)
    (now : PyStr) : OrderResult × SimpleRLLoop :=
  let reward := orderReward order
  let s' := order.items.foldl (applyOrderItem user_id reward) s
  ({ user_id := user_id, reward := reward, items_count := order.items.length,
     order_total := order.total, timestamp := now }, s')

/-- The body of `record_user_feedback` after normalization (lines 191-192):
`q_values[(u,i)] += feedback_score * alpha`,
`user_preferences[u][i] += feedback_score`. -/
def feedbackApply (s : SimpleRLLoop) (user_id item_id : Int) (feedback_score : Rat) :
    SimpleRLLoop :=
  { q_values := dinsert s.q_values (user_id, item_id)
      (dgetD s.q_values (user_id, item_id) 0 + feedback_score * alpha),
    user_preferences := dset2 s.user_preferences user_id item_id
      (dgetD (dgetD s.user_preferences user_id []) item_id 0 + feedback_score),
    item_popularity := s.item_popularity }

/-- `record_user_feedback` (lines 186-195): scores above 1 are divided
by 5 first, then applied. -/
def record_user_feedback (s : SimpleRLLoop) (user_id item_id : Int)
    (feedback_score : Rat) : SimpleRLLoop :=
  feedbackApply s user_id item_id
    (if feedback_score > 1 then feedback_score / 5 else feedback_score)

/-! ### Recommender (`get_personalized_recommendations`, lines 146-184) -/

/-- A candidate catalog item: at minimum an `item_id`; `payload` stands for
the other catalog fields (name, price, ...) carried through by `{**item}`. -/
structure CatalogItem where
  item_id : Int
  payload : Int
  deriving DecidableEq

/-- A scored candidate: the original fields plus `rl_score`, `q_value`,
`preference` (lines 169-174). -/
structure ScoredItem where
  item : CatalogItem
  rl_score : Rat
  q_value : Rat
  preference : Rat
  deriving DecidableEq

/-- The body of the scoring loop (lines 154-174).  All three reads use
`.get` (with default 0 / the prefetched `user_prefs` snapshot), so no entry
is materialized; the loop state is threaded explicitly to record that. -/
def recScoreStep (user_id : Int) (user_prefs : Dict Int Rat)
    (acc : List ScoredItem × SimpleRLLoop) (it : CatalogItem) :
    List ScoredItem × SimpleRLLoop :=
  let st := acc.2
  let q_score := dgetD st.q_values (user_id, it.item_id) 0
  let pref_score := dgetD user_prefs it.item_id 0
  let pop_score := dgetD st.item_popularity it.item_id 0 * (1 / 10)
  (acc.1 ++ [{ item := it,
               rl_score := q_score * (2 / 5) + pref_score * (2 / 5) + pop_score * (1 / 5),
               q_value := q_score, preference := pref_score }], st)

/-- Stable insertion into a descending-sorted list: the new element goes
after all strictly greater and all equal earlier elements. -/
def insertDesc (x : ScoredItem) : List ScoredItem → List ScoredItem
  | [] => [x]
  | y :: ys => if y.rl_score ≤ x.rl_score then x :: y :: ys else y :: insertDesc x ys

/-- Python's `sorted(l, key=lambda x: x['rl_score'], reverse=True)`:
a stable sort, descending by `rl_score`. -/
def isortDesc : List ScoredItem → List ScoredItem
  | [] => []
  | x :: xs => insertDesc x (isortDesc xs)

/-- `get_personalized_recommendations` (lines 146-184).  The two sources of
randomness are passed in as data: `exploreRoll` is the outcome of
`random.random() < self.epsilon`, and `sample` is the list drawn by
`random.sample(scored_items, min(2, len(scored_items)))`.  The pair's second
component is the loop state after the call. -/
def get_personalized_recommendations (s : SimpleRLLoop) (user_id : Int)
    (available_items : List CatalogItem) (exploreRoll : Bool)
    (sample : List ScoredItem) : List ScoredItem × SimpleRLLoop :=
  let user_prefs := dgetD s.user_preferences user_id []
  let scoredSt := available_items.foldl (recScoreStep user_id user_prefs) ([], s)
  let scored_items := scoredSt.1
  let final_items :=
    if exploreRoll ∧ scored_items.length > 3 then
      (isortDesc scored_items).take 3 ++ sample
    else
      isortDesc scored_items
  (final_items.take 5, scoredSt.2)

/-! ### Persistence (`save_state` lines 220-261, `load_state` lines 263-314) -/

/-- The JSON document written by `save_state`: three sections with
string-encoded keys.  The timestamp field is ignored by `load_state` and
not carried. -/
structure RLStateFile where
  q_values : Dict PyStr Rat
  user_preferences : Dict PyStr (Dict PyStr Rat)
  item_popularity : Dict PyStr Rat
  deriving DecidableEq

/-- Serialization of `q_values` (lines 224-227): a fresh dict populated by
`q_values_serialized[f"{user_id}_{item_id}"] = float(value)` per entry. -/
def serializeQ (q : Dict (Int × Int) Rat) : Dict PyStr Rat :=
  q.foldl (fun acc kv => dinsert acc (encodeQKey kv.1.1 kv.1.2) kv.2) []

/-- Serialization of one user's preference dict (lines 233-236):
`{str(item_id): float(value) for ...}`. -/
def serializeInner (prefs : Dict Int Rat) : Dict PyStr Rat :=
  prefs.foldl (fun acc kv => dinsert acc (intStr kv.1) kv.2) []

/-- Serialization of `user_preferences` (lines 230-236). -/
def serializePrefs (p : Dict Int (Dict Int Rat)) : Dict PyStr (Dict PyStr Rat) :=
  p.foldl (fun acc kv => dinsert acc (intStr kv.1) (serializeInner kv.2)) []

/-- Serialization of `item_popularity` (lines 238-241). -/
def serializePop (p : Dict Int Rat) : Dict PyStr Rat :=
  p.foldl (fun acc kv => dinsert acc (intStr kv.1) kv.2) []

/-- The document `save_state` assembles (lines 243-248). -/
def save_stateDoc (s : SimpleRLLoop) : RLStateFile :=
  { q_values := serializeQ s.q_values,
    user_preferences := serializePrefs s.user_preferences,
    item_popularity := serializePop s.item_popularity }

/-- `save_state` (lines 220-261).  `writeOk` stands for whether the
`open`/`json.dump` succeeded; on failure the exception is caught and logged
(lines 258-261) and nothing is written.  Either way the method only reads
`self`, so the returned in-memory state is the input state. -/
def save_state (s : SimpleRLLoop) (writeOk : Bool) : Option RLStateFile × SimpleRLLoop :=
  if writeOk then (some (save_stateDoc s), s) else (none, s)

/-- What `load_state` finds at the path: no file (`FileNotFoundError`),
a file that is not valid JSON (`json.JSONDecodeError`), or a parsed
document. -/
inductive FileRead where
  | missing
  | parseError
  | ok (doc : RLStateFile)
  deriving DecidableEq

/-- One entry of the Q-value restore loop (lines 275-280): parse the key,
skipping the entry on any error. -/
def loadQEntry (acc : Dict (Int × Int) Rat) (kv : PyStr × Rat) : Dict (Int × Int) Rat :=
  match parseQKey kv.1 with
  | some ui => dinsert acc ui kv.2
  | none => acc

/-- The inner loop restoring one user's preferences (lines 287-289): a
malformed item key raises inside the per-user `try`, so the remaining
entries of this user are abandoned while earlier writes stand. -/
def loadPrefInner (u : Int) (acc : Dict Int (Dict Int Rat)) :
    List (PyStr × Rat) → Dict Int (Dict Int Rat)
  | [] => acc
  | kv :: rest =>
    match parseInt kv.1 with
    | none => acc
    | some i => loadPrefInner u (dset2 acc u i kv.2) rest

/-- One entry of the preference restore loop (lines 284-291): a malformed
user key skips the whole user. -/
def loadPrefEntry (acc : Dict Int (Dict Int Rat)) (kv : PyStr × Dict PyStr Rat) :
    Dict Int (Dict Int Rat) :=
  match parseInt kv.1 with
  | some u => loadPrefInner u acc kv.2
  | none => acc

/-- One entry of the popularity restore loop (lines 295-300). -/
def loadPopEntry (acc : Dict Int Rat) (kv : PyStr × Rat) : Dict Int Rat :=
  match parseInt kv.1 with
  | some i => dinsert acc i kv.2
  | none => acc

/-- `load_state` (lines 263-314).  A missing or unparseable file raises
before the mappings are reset (lines 268-269 precede lines 274/283/294), so
the caught exception leaves the previous in-memory state intact.  With a
parsed document, each mapping is rebuilt from empty with the per-entry /
per-user tolerance of the three restore loops. -/
def load_state (s : SimpleRLLoop) (fr : FileRead) : SimpleRLLoop :=
  match fr with
  | .missing => s
  | .parseError => s
  | .ok doc =>
    { q_values := doc.q_values.foldl loadQEntry [],
      user_preferences := doc.user_preferences.foldl loadPrefEntry [],
      item_popularity := doc.item_popularity.foldl loadPopEntry [] }

/-- The decoded (key, value) pairs that the Q-value restore loop inserts. -/
def decodeQ (l : List (PyStr × Rat)) : Dict (Int × Int) Rat :=
  l.filterMap (fun kv => (parseQKey kv.1).map (fun ui => (ui, kv.2)))

/-- The decoded (key, value) pairs that the popularity restore loop inserts. -/
def decodePop (l : List (PyStr × Rat)) : Dict Int Rat :=
  l.filterMap (fun kv => (parseInt kv.1).map (fun i => (i, kv.2)))

/-- The decoded (key, value) pairs actually written by the inner preference
restore loop: decoding stops at the first malformed item key. -/
def decInner (l : List (PyStr × Rat)) : List (Int × Rat) :=
  (l.takeWhile (fun kv => (parseInt kv.1).isSome)).filterMap
    (fun kv => (parseInt kv.1).map (fun i => (i, kv.2)))

/-- `record_item_selected(U, I)` repeated `n` times. -/
def iterSelect (n : Nat) (s : SimpleRLLoop) (U I : Int) : SimpleRLLoop :=
  match n with
  | 0 => s
  | n + 1 => record_item_selected (iterSelect n s U I) U I

theorem charVal_digitChar {n : Nat} (h : n < 10) : charVal (digitChar n) = n := by
  interval_cases n <;> rfl

theorem isDigitCh_digitChar {n : Nat} (h : n < 10) : isDigitCh (digitChar n) = true := by
  interval_cases n <;> rfl

theorem digitChar_ne_neg {n : Nat} (h : n < 10) : digitChar n ≠ '-' := by
  interval_cases n <;> decide

theorem digitChar_ne_plus {n : Nat} (h : n < 10) : digitChar n ≠ '+' := by
  interval_cases n <;> decide

theorem digitChar_ne_underscore {n : Nat} (h : n < 10) : digitChar n ≠ '_' := by
  interval_cases n <;> decide

theorem natDigs_ne_nil (n : Nat) : natDigs n ≠ [] := by
  rw [natDigs]
  split
  · simp
  · simp

theorem natDigs_mem {n : Nat} {c : Char} (hc : c ∈ natDigs n) : ∃ d, d < 10 ∧ c = digitChar d := by
  induction n using Nat.strong_induction_on with
  | _ n ih =>
    rw [natDigs] at hc
    split at hc
    · exact ⟨n, by omega, by simpa using hc⟩
    · rcases List.mem_append.mp hc with h1 | h2
      · exact ih (n / 10) (Nat.div_lt_self (by omega) (by omega)) h1
      · exact ⟨n % 10, Nat.mod_lt _ (by omega), by simpa using h2⟩

theorem natDigs_all_digit {n : Nat} {c : Char} (hc : c ∈ natDigs n) : isDigitCh c = true := by
  obtain ⟨d, hd, rfl⟩ := natDigs_mem hc
  exact isDigitCh_digitChar hd

theorem digitsVal_append_singleton (l : List Char) (c : Char) :
    digitsVal (l ++ [c]) = digitsVal l * 10 + charVal c := by
  simp [digitsVal, List.foldl_append]

theorem digitsVal_natDigs (n : Nat) : digitsVal (natDigs n) = n := by
  induction n using Nat.strong_induction_on with
  | _ n ih =>
    rw [natDigs]
    split
    · rename_i h
      simp [digitsVal, charVal_digitChar h]
    · rw [digitsVal_append_singleton, ih (n / 10) (Nat.div_lt_self (by omega) (by omega)),
        charVal_digitChar (Nat.mod_lt _ (by omega))]
      omega

theorem underscore_not_mem_natDigs (n : Nat) : '_' ∉ natDigs n := by
  intro h
  obtain ⟨d, hd, hc⟩ := natDigs_mem h
  exact digitChar_ne_underscore hd hc.symm

theorem underscore_not_mem_intStr (n : Int) : '_' ∉ intStr n := by
  rw [intStr]
  split
  · intro h
    rcases List.mem_cons.mp h with h | h
    · exact absurd h (by decide)
    · exact underscore_not_mem_natDigs _ h
  · exact underscore_not_mem_natDigs _

theorem isPySpace_eq_false_of_digit {c : Char} (h : isDigitCh c = true) :
    isPySpace c = false := by
  have h1 : 48 ≤ c.toNat ∧ c.toNat ≤ 57 := by simpa [isDigitCh] using h
  simp [isPySpace]
  omega

theorem dropWhile_eq_self_of_all {p : Char → Bool} {l : List Char}
    (h : ∀ c ∈ l, p c = false) : l.dropWhile p = l := by
  cases l with
  | nil => rfl
  | cons c rest =>
    rw [List.dropWhile_cons, if_neg (by simp [h c (List.mem_cons_self _ _)])]

theorem pyStrip_eq_self {l : PyStr} (h : ∀ c ∈ l, isPySpace c = false) :
    pyStrip l = l := by
  rw [pyStrip, dropWhile_eq_self_of_all h,
    dropWhile_eq_self_of_all (fun c hc => h c (List.mem_reverse.mp hc)),
    List.reverse_reverse]

theorem digitsUnd_of_all_digit : ∀ {l : List Char}, l ≠ [] →
    (∀ c ∈ l, isDigitCh c = true) → digitsUnd l = true := by
  intro l
  induction l with
  | nil => intro h _; exact absurd rfl h
  | cons c t ih =>
    intro _ hall
    cases t with
    | nil => simpa [digitsUnd] using hall c (List.mem_cons_self _ _)
    | cons c2 rest =>
      have hc2 : isDigitCh c2 = true :=
        hall c2 (List.mem_cons_of_mem _ (List.mem_cons_self _ _))
      have hc2ne : ¬(c2 = '_') := fun he => by
        rw [he] at hc2
        exact absurd hc2 (by decide)
      rw [show digitsUnd (c :: c2 :: rest)
          = (isDigitCh c && (if c2 = '_' then digitsUnd rest else digitsUnd (c2 :: rest)))
          from rfl,
        if_neg hc2ne, hall c (List.mem_cons_self _ _),
        ih (by simp) (fun x hx => hall x (List.mem_cons_of_mem _ hx)), Bool.and_self]

theorem filter_ne_underscore {l : List Char} (h : '_' ∉ l) :
    l.filter (fun x => x != '_') = l :=
  List.filter_eq_self.mpr (fun a ha =>
    bne_iff_ne.mpr (fun he => h (by rw [← he]; exact ha)))

theorem parseInt_natDigs (n : Nat) : parseInt (natDigs n) = some (n : Int) := by
  have hstrip : pyStrip (natDigs n) = natDigs n :=
    pyStrip_eq_self (fun c hc => isPySpace_eq_false_of_digit (natDigs_all_digit hc))
  have hund : digitsUnd (natDigs n) = true :=
    digitsUnd_of_all_digit (natDigs_ne_nil n) (fun c hc => natDigs_all_digit hc)
  have hfil : (natDigs n).filter (fun x => x != '_') = natDigs n :=
    filter_ne_underscore (underscore_not_mem_natDigs n)
  rcases hsplit : natDigs n with _ | ⟨c, rest⟩
  · exact absurd hsplit (natDigs_ne_nil n)
  · have hcmem : c ∈ natDigs n := by rw [hsplit]; exact List.mem_cons_self _ _
    obtain ⟨d, hd, rfl⟩ := natDigs_mem hcmem
    rw [hsplit] at hstrip hund hfil
    simp only [parseInt, hstrip]
    rw [if_neg (digitChar_ne_neg hd), if_neg (digitChar_ne_plus hd), if_pos hund, hfil]
    rw [← hsplit, digitsVal_natDigs]

theorem parseInt_intStr (n : Int) : parseInt (intStr n) = some n := by
  rw [intStr]
  split
  · rename_i hn
    have hstrip : pyStrip ('-' :: natDigs (-n).toNat) = '-' :: natDigs (-n).toNat :=
      pyStrip_eq_self (by
        intro c hc
        rcases List.mem_cons.mp hc with rfl | hc
        · decide
        · exact isPySpace_eq_false_of_digit (natDigs_all_digit hc))
    have hund : digitsUnd (natDigs (-n).toNat) = true :=
      digitsUnd_of_all_digit (natDigs_ne_nil _) (fun c hc => natDigs_all_digit hc)
    have hfil : (natDigs (-n).toNat).filter (fun x => x != '_') = natDigs (-n).toNat :=
      filter_ne_underscore (underscore_not_mem_natDigs _)
    simp only [parseInt, hstrip]
    rw [if_pos trivial, if_pos hund, hfil, digitsVal_natDigs]
    congr 1
    omega
  · rename_i hn
    rw [parseInt_natDigs]
    congr 1
    omega

theorem splitChar_ne_nil (sep : Char) (l : PyStr) : splitChar sep l ≠ [] := by
  induction l with
  | nil => simp [splitChar]
  | cons c rest ih =>
    rw [splitChar]
    split
    · simp
    · rcases h : splitChar sep rest with _ | ⟨a, b⟩
      · exact absurd h ih
      · simp [h]

theorem splitChar_of_not_mem {sep : Char} {l : PyStr} (h : sep ∉ l) :
    splitChar sep l = [l] := by
  induction l with
  | nil => rfl
  | cons c rest ih =>
    have hcne : ¬(c = sep) := fun hc => h (by rw [← hc]; exact List.mem_cons_self _ _)
    have hcr : splitChar sep rest = [rest] := ih (fun hm => h (List.mem_cons_of_mem _ hm))
    rw [splitChar, if_neg hcne, hcr]

theorem splitChar_append {sep : Char} {a b : PyStr} (ha : sep ∉ a) (hb : sep ∉ b) :
    splitChar sep (a ++ sep :: b) = [a, b] := by
  induction a with
  | nil =>
    rw [List.nil_append, splitChar, if_pos rfl, splitChar_of_not_mem hb]
  | cons c rest ih =>
    have hcne : ¬(c = sep) := fun hc => ha (by rw [← hc]; exact List.mem_cons_self _ _)
    have hcr := ih (fun hm => ha (List.mem_cons_of_mem _ hm))
    rw [List.cons_append, splitChar, if_neg hcne, hcr]

theorem parseQKey_encodeQKey (u i : Int) : parseQKey (encodeQKey u i) = some (u, i) := by
  rw [parseQKey, encodeQKey,
    splitChar_append (underscore_not_mem_intStr u) (underscore_not_mem_intStr i)]
  simp [parseInt_intStr]

theorem encodeQKey_injective {u i u' i' : Int}
    (h : encodeQKey u i = encodeQKey u' i') : u = u' ∧ i = i' := by
  have h1 := parseQKey_encodeQKey u i
  rw [h, parseQKey_encodeQKey] at h1
  have h2 := Option.some_injective _ h1
  exact ⟨(congrArg Prod.fst h2).symm, (congrArg Prod.snd h2).symm⟩

theorem intStr_injective {n m : Int} (h : intStr n = intStr m) : n = m := by
  have h1 := parseInt_intStr n
  rw [h, parseInt_intStr] at h1
  exact (Option.some_injective _ h1).symm

theorem dkeys_cons {K V : Type} (k : K) (v : V) (rest : Dict K V) :
    dkeys ((k, v) :: rest) = k :: dkeys rest := rfl

theorem not_mem_dkeys_head {K V : Type} {d : Dict K V} {k k' : K} {v' : V}
    (h : k ∉ dkeys ((k', v') :: d)) : ¬(k = k') :=
  fun he => h (by rw [dkeys_cons, he]; exact List.mem_cons_self _ _)

theorem not_mem_dkeys_tail {K V : Type} {d : Dict K V} {k k' : K} {v' : V}
    (h : k ∉ dkeys ((k', v') :: d)) : k ∉ dkeys d :=
  fun hm => h (by rw [dkeys_cons]; exact List.mem_cons_of_mem _ hm)

theorem dlookup_dinsert_self {K V : Type} [DecidableEq K] (d : Dict K V) (k : K) (v : V) :
    dlookup (dinsert d k v) k = some v := by
  induction d with
  | nil => simp [dinsert, dlookup]
  | cons kv rest ih =>
    obtain ⟨k', v'⟩ := kv
    rw [dinsert]
    by_cases h : k = k'
    · rw [if_pos h, dlookup, if_pos h]
    · rw [if_neg h, dlookup, if_neg h, ih]

theorem dlookup_dinsert_ne {K V : Type} [DecidableEq K] (d : Dict K V) {k k' : K} {v : V}
    (h : k' ≠ k) : dlookup (dinsert d k v) k' = dlookup d k' := by
  induction d with
  | nil => simp [dinsert, dlookup, h]
  | cons kv rest ih =>
    obtain ⟨k'', v''⟩ := kv
    by_cases hk : k = k''
    · subst hk
      rw [dinsert, if_pos rfl, dlookup, if_neg h, dlookup, if_neg h]
    · rw [dinsert, if_neg hk, dlookup, dlookup]
      by_cases hk' : k' = k''
      · rw [if_pos hk', if_pos hk']
      · rw [if_neg hk', if_neg hk', ih]

theorem dlookup_of_not_mem {K V : Type} [DecidableEq K] {d : Dict K V} {k : K}
    (h : k ∉ dkeys d) : dlookup d k = none := by
  induction d with
  | nil => rfl
  | cons kv rest ih =>
    obtain ⟨k', v'⟩ := kv
    rw [dlookup, if_neg (not_mem_dkeys_head h), ih (not_mem_dkeys_tail h)]

theorem dinsert_of_not_mem {K V : Type} [DecidableEq K] {d : Dict K V} {k : K} (v : V)
    (h : k ∉ dkeys d) : dinsert d k v = d ++ [(k, v)] := by
  induction d with
  | nil => rfl
  | cons kv rest ih =>
    obtain ⟨k', v'⟩ := kv
    rw [dinsert, if_neg (not_mem_dkeys_head h), ih (not_mem_dkeys_tail h), List.cons_append]

theorem dlookup_eq_of_mem_nodup {K V : Type} [DecidableEq K] {d : Dict K V} {k : K} {v : V}
    (hd : (dkeys d).Nodup) (hm : (k, v) ∈ d) : dlookup d k = some v := by
  induction d with
  | nil => exact absurd hm (List.not_mem_nil _)
  | cons kv rest ih =>
    obtain ⟨k', v'⟩ := kv
    rcases List.mem_cons.mp hm with h | h
    · obtain ⟨rfl, rfl⟩ := Prod.mk.injEq .. ▸ h
      rw [dlookup, if_pos rfl]
    · have hk : k ≠ k' := by
        rintro rfl
        exact (List.nodup_cons.mp hd).1 (List.mem_map.mpr ⟨(k, v), h, rfl⟩)
      rw [dlookup, if_neg hk]
      exact ih (List.nodup_cons.mp hd).2 h

theorem dinsert_dinsert_same {K V : Type} [DecidableEq K] (d : Dict K V) (k : K) (a b : V) :
    dinsert (dinsert d k a) k b = dinsert d k b := by
  induction d with
  | nil => simp [dinsert]
  | cons kv rest ih =>
    obtain ⟨k', v'⟩ := kv
    by_cases h : k = k'
    · rw [dinsert, if_pos h, dinsert, if_pos h, dinsert, if_pos h]
    · rw [dinsert, if_neg h, dinsert, if_neg h, dinsert, if_neg h, ih]

theorem dinsert_lookup_self {K V : Type} [DecidableEq K] {d : Dict K V} {k : K} {v : V}
    (h : dlookup d k = some v) : dinsert d k v = d := by
  induction d with
  | nil => exact absurd h (by simp [dlookup])
  | cons kv rest ih =>
    obtain ⟨k', v'⟩ := kv
    rw [dlookup] at h
    by_cases hk : k = k'
    · rw [if_pos hk] at h
      rw [dinsert, if_pos hk, Option.some_injective _ h]
    · rw [if_neg hk] at h
      rw [dinsert, if_neg hk, ih h]

theorem dinsert_append_right {K V : Type} [DecidableEq K] {d : Dict K V} {k : K} (c x : V)
    (h : k ∉ dkeys d) : dinsert (d ++ [(k, c)]) k x = d ++ [(k, x)] := by
  induction d with
  | nil => simp [dinsert]
  | cons kv rest ih =>
    obtain ⟨k', v'⟩ := kv
    rw [List.cons_append, dinsert, if_neg (not_mem_dkeys_head h),
      ih (not_mem_dkeys_tail h), List.cons_append]

theorem mem_dkeys_dinsert {K V : Type} [DecidableEq K] {d : Dict K V} {k k' : K} {v : V}
    (h : k' ∈ dkeys (dinsert d k v)) : k' ∈ dkeys d ∨ k' = k := by
  induction d with
  | nil =>
    rw [show dinsert ([] : Dict K V) k v = [(k, v)] from rfl, dkeys_cons] at h
    rcases List.mem_cons.mp h with h | h
    · exact Or.inr h
    · exact absurd h (List.not_mem_nil _)
  | cons kv rest ih =>
    obtain ⟨k'', v''⟩ := kv
    rw [dinsert] at h
    by_cases hk : k = k''
    · rw [if_pos hk, dkeys_cons] at h
      rw [dkeys_cons]
      rcases List.mem_cons.mp h with h | h
      · exact Or.inl (List.mem_cons.mpr (Or.inl h))
      · exact Or.inl (List.mem_cons.mpr (Or.inr h))
    · rw [if_neg hk, dkeys_cons] at h
      rw [dkeys_cons]
      rcases List.mem_cons.mp h with h | h
      · exact Or.inl (List.mem_cons.mpr (Or.inl h))
      · rcases ih h with h' | h'
        · exact Or.inl (List.mem_cons.mpr (Or.inr h'))
        · exact Or.inr h'

/-! ### Fold lemmas: building a dict by repeated assignment -/

theorem foldl_dinsert_enc_eq_append {A K V : Type} [DecidableEq K]
    (encK : A → K) (encV : A → V) (l : List A) (acc : Dict K V)
    (hfresh : ∀ x ∈ l, encK x ∉ dkeys acc)
    (hnodup : (l.map encK).Nodup) :
    l.foldl (fun a x => dinsert a (encK x) (encV x)) acc
      = acc ++ l.map (fun x => (encK x, encV x)) := by
  induction l generalizing acc with
  | nil => simp
  | cons x rest ih =>
    rw [List.foldl_cons,
      dinsert_of_not_mem (encV x) (hfresh x (List.mem_cons_self _ _))]
    rw [List.map_cons] at hnodup
    have hnd := List.nodup_cons.mp hnodup
    rw [ih (acc ++ [(encK x, encV x)]) ?fresh hnd.2, List.map_cons]
    · simp
    case fresh =>
      intro y hy hmem
      rw [show dkeys (acc ++ [(encK x, encV x)]) = dkeys acc ++ [encK x] by
        simp [dkeys]] at hmem
      rcases List.mem_append.mp hmem with h | h
      · exact hfresh y (List.mem_cons_of_mem _ hy) h
      · exact hnd.1 (List.mem_map.mpr ⟨y, hy, List.mem_singleton.mp h⟩)

theorem filterMap_eq_self {A : Type} {f : A → Option A} {l : List A}
    (h : ∀ x ∈ l, f x = some x) : l.filterMap f = l := by
  induction l with
  | nil => rfl
  | cons x rest ih =>
    rw [List.filterMap_cons, h x (List.mem_cons_self _ _),
      ih (fun y hy => h y (List.mem_cons_of_mem _ hy))]

theorem foldl_loadQEntry_eq (l : List (PyStr × Rat)) (acc : Dict (Int × Int) Rat) :
    l.foldl loadQEntry acc = (decodeQ l).foldl (fun a x => dinsert a x.1 x.2) acc := by
  induction l generalizing acc with
  | nil => rfl
  | cons kv rest ih =>
    rw [List.foldl_cons, decodeQ, List.filterMap_cons]
    cases h : parseQKey kv.1 with
    | none =>
      rw [show loadQEntry acc kv = acc by rw [loadQEntry, h]]
      exact ih acc
    | some ui =>
      rw [show loadQEntry acc kv = dinsert acc ui kv.2 by rw [loadQEntry, h],
        Option.map_some']
      rw [List.foldl_cons]
      exact ih _

theorem foldl_loadPopEntry_eq (l : List (PyStr × Rat)) (acc : Dict Int Rat) :
    l.foldl loadPopEntry acc = (decodePop l).foldl (fun a x => dinsert a x.1 x.2) acc := by
  induction l generalizing acc with
  | nil => rfl
  | cons kv rest ih =>
    rw [List.foldl_cons, decodePop, List.filterMap_cons]
    cases h : parseInt kv.1 with
    | none =>
      rw [show loadPopEntry acc kv = acc by rw [loadPopEntry, h]]
      exact ih acc
    | some i =>
      rw [show loadPopEntry acc kv = dinsert acc i kv.2 by rw [loadPopEntry, h],
        Option.map_some']
      rw [List.foldl_cons]
      exact ih _

theorem serializeQ_eq_map {q : Dict (Int × Int) Rat} (h : (dkeys q).Nodup) :
    serializeQ q = q.map (fun kv => (encodeQKey kv.1.1 kv.1.2, kv.2)) := by
  have hinj : Function.Injective (fun p : Int × Int => encodeQKey p.1 p.2) := by
    intro a b hab
    obtain ⟨h1, h2⟩ := encodeQKey_injective hab
    exact Prod.ext h1 h2
  have hnd : (q.map (fun kv : (Int × Int) × Rat => encodeQKey kv.1.1 kv.1.2)).Nodup := by
    have : q.map (fun kv : (Int × Int) × Rat => encodeQKey kv.1.1 kv.1.2)
        = (dkeys q).map (fun p => encodeQKey p.1 p.2) := by
      rw [dkeys, List.map_map]; rfl
    rw [this]
    exact h.map hinj
  have := foldl_dinsert_enc_eq_append
    (fun kv : (Int × Int) × Rat => encodeQKey kv.1.1 kv.1.2) (fun kv => kv.2) q []
    (fun x _ hm => List.not_mem_nil _ hm) hnd
  simpa [serializeQ] using this

theorem loadQ_roundtrip {q : Dict (Int × Int) Rat} (h : (dkeys q).Nodup) :
    (serializeQ q).foldl loadQEntry [] = q := by
  rw [serializeQ_eq_map h, foldl_loadQEntry_eq]
  have hdec : decodeQ (q.map (fun kv => (encodeQKey kv.1.1 kv.1.2, kv.2))) = q := by
    rw [decodeQ, List.filterMap_map]
    exact filterMap_eq_self (fun kv _ => by
      simp [Function.comp, parseQKey_encodeQKey])
  rw [hdec]
  have := foldl_dinsert_enc_eq_append Prod.fst Prod.snd q []
    (fun x _ hm => List.not_mem_nil _ hm) h
  simpa using this

theorem serializePop_eq_map {p : Dict Int Rat} (h : (dkeys p).Nodup) :
    serializePop p = p.map (fun kv => (intStr kv.1, kv.2)) := by
  have hnd : (p.map (fun kv : Int × Rat => intStr kv.1)).Nodup := by
    have : p.map (fun kv : Int × Rat => intStr kv.1) = (dkeys p).map intStr := by
      rw [dkeys, List.map_map]; rfl
    rw [this]
    exact h.map (fun a b hab => intStr_injective hab)
  have := foldl_dinsert_enc_eq_append
    (fun kv : Int × Rat => intStr kv.1) (fun kv => kv.2) p []
    (fun x _ hm => List.not_mem_nil _ hm) hnd
  simpa [serializePop] using this

theorem loadPop_roundtrip {p : Dict Int Rat} (h : (dkeys p).Nodup) :
    (serializePop p).foldl loadPopEntry [] = p := by
  rw [serializePop_eq_map h, foldl_loadPopEntry_eq]
  have hdec : decodePop (p.map (fun kv => (intStr kv.1, kv.2))) = p := by
    rw [decodePop, List.filterMap_map]
    exact filterMap_eq_self (fun kv _ => by
      simp [Function.comp, parseInt_intStr])
  rw [hdec]
  have := foldl_dinsert_enc_eq_append Prod.fst Prod.snd p []
    (fun x _ hm => List.not_mem_nil _ hm) h
  simpa using this

/-! ### Fold lemmas for the nested preference dict -/

theorem dlookup_append_singleton {K V : Type} [DecidableEq K] {d : Dict K V} {k : K} (v : V)
    (h : k ∉ dkeys d) : dlookup (d ++ [(k, v)]) k = some v := by
  induction d with
  | nil => simp [dlookup]
  | cons kv rest ih =>
    obtain ⟨k', v'⟩ := kv
    rw [List.cons_append, dlookup, if_neg (not_mem_dkeys_head h), ih (not_mem_dkeys_tail h)]

theorem foldl_dset2_of_lookup {l : List (Int × Rat)} {acc : Dict Int (Dict Int Rat)}
    {u : Int} {cur : Dict Int Rat} (h : dlookup acc u = some cur) :
    l.foldl (fun a kv => dset2 a u kv.1 kv.2) acc
      = dinsert acc u (l.foldl (fun c kv => dinsert c kv.1 kv.2) cur) := by
  induction l generalizing acc cur with
  | nil => rw [List.foldl_nil, List.foldl_nil, dinsert_lookup_self h]
  | cons kv rest ih =>
    rw [List.foldl_cons, List.foldl_cons]
    have hget : dgetD acc u [] = cur := by rw [dgetD, h]; rfl
    have hstep : dset2 acc u kv.1 kv.2 = dinsert acc u (dinsert cur kv.1 kv.2) := by
      rw [dset2, hget]
    rw [hstep, ih (dlookup_dinsert_self acc u (dinsert cur kv.1 kv.2)),
      dinsert_dinsert_same]

theorem foldl_dset2_of_fresh {kv0 : Int × Rat} {l : List (Int × Rat)}
    {acc : Dict Int (Dict Int Rat)} {u : Int} (h : u ∉ dkeys acc) :
    (kv0 :: l).foldl (fun a kv => dset2 a u kv.1 kv.2) acc
      = acc ++ [(u, (kv0 :: l).foldl (fun c kv => dinsert c kv.1 kv.2) [])] := by
  rw [List.foldl_cons, List.foldl_cons]
  have hget : dgetD acc u [] = [] := by rw [dgetD, dlookup_of_not_mem h]; rfl
  have hstep : dset2 acc u kv0.1 kv0.2 = acc ++ [(u, dinsert [] kv0.1 kv0.2)] := by
    rw [dset2, hget, dinsert_of_not_mem _ h]
  rw [hstep, foldl_dset2_of_lookup (dlookup_append_singleton _ h),
    dinsert_append_right _ _ h]

theorem loadPrefInner_eq (u : Int) (l : List (PyStr × Rat)) (acc : Dict Int (Dict Int Rat)) :
    loadPrefInner u acc l = (decInner l).foldl (fun a kv => dset2 a u kv.1 kv.2) acc := by
  induction l generalizing acc with
  | nil => rfl
  | cons kv rest ih =>
    cases h : parseInt kv.1 with
    | none =>
      have h1 : loadPrefInner u acc (kv :: rest) = acc := by
        simp only [loadPrefInner, h]
      have h2 : decInner (kv :: rest) = [] := by
        simp [decInner, List.takeWhile_cons, h]
      rw [h1, h2, List.foldl_nil]
    | some i =>
      have h1 : loadPrefInner u acc (kv :: rest)
          = loadPrefInner u (dset2 acc u i kv.2) rest := by
        simp only [loadPrefInner, h]
      have h2 : decInner (kv :: rest) = (i, kv.2) :: decInner rest := by
        simp [decInner, List.takeWhile_cons, h]
      rw [h1, h2, List.foldl_cons, ih]

theorem dlookup_loadPrefInner_ne {u w : Int} (hne : w ≠ u)
    (l : List (PyStr × Rat)) (acc : Dict Int (Dict Int Rat)) :
    dlookup (loadPrefInner u acc l) w = dlookup acc w := by
  induction l generalizing acc with
  | nil => rfl
  | cons kv rest ih =>
    cases h : parseInt kv.1 with
    | none => simp only [loadPrefInner, h]
    | some i =>
      simp only [loadPrefInner, h]
      rw [ih]
      exact dlookup_dinsert_ne acc hne

theorem mem_dkeys_loadPrefInner {u w : Int} {l : List (PyStr × Rat)}
    {acc : Dict Int (Dict Int Rat)}
    (h : w ∈ dkeys (loadPrefInner u acc l)) : w ∈ dkeys acc ∨ w = u := by
  induction l generalizing acc with
  | nil => exact Or.inl h
  | cons kv rest ih =>
    cases hp : parseInt kv.1 with
    | none =>
      simp only [loadPrefInner, hp] at h
      exact Or.inl h
    | some i =>
      simp only [loadPrefInner, hp] at h
      rcases ih h with h' | h'
      · exact mem_dkeys_dinsert h'
      · exact Or.inr h'

theorem dlookup_foldl_loadPrefEntry_ne {w : Int} {l : List (PyStr × Dict PyStr Rat)}
    {acc : Dict Int (Dict Int Rat)} (h : ∀ kv ∈ l, parseInt kv.1 ≠ some w) :
    dlookup (l.foldl loadPrefEntry acc) w = dlookup acc w := by
  induction l generalizing acc with
  | nil => rfl
  | cons kv rest ih =>
    rw [List.foldl_cons]
    cases hp : parseInt kv.1 with
    | none =>
      have h1 : loadPrefEntry acc kv = acc := by simp only [loadPrefEntry, hp]
      rw [h1]
      exact ih (fun kv' hm => h kv' (List.mem_cons_of_mem _ hm))
    | some u =>
      have hu : w ≠ u := fun he => h kv (List.mem_cons_self _ _) (by rw [he]; exact hp)
      have h1 : loadPrefEntry acc kv = loadPrefInner u acc kv.2 := by
        simp only [loadPrefEntry, hp]
      rw [h1, ih (fun kv' hm => h kv' (List.mem_cons_of_mem _ hm)),
        dlookup_loadPrefInner_ne hu]

theorem mem_dkeys_foldl_loadPrefEntry {w : Int} {l : List (PyStr × Dict PyStr Rat)}
    {acc : Dict Int (Dict Int Rat)}
    (h : w ∈ dkeys (l.foldl loadPrefEntry acc)) :
    w ∈ dkeys acc ∨ ∃ kv ∈ l, parseInt kv.1 = some w := by
  induction l generalizing acc with
  | nil => exact Or.inl h
  | cons kv rest ih =>
    rw [List.foldl_cons] at h
    rcases ih h with h' | ⟨kv', hm, hp'⟩
    · cases hp : parseInt kv.1 with
      | none =>
        have h1 : loadPrefEntry acc kv = acc := by simp only [loadPrefEntry, hp]
        rw [h1] at h'
        exact Or.inl h'
      | some u =>
        have h1 : loadPrefEntry acc kv = loadPrefInner u acc kv.2 := by
          simp only [loadPrefEntry, hp]
        rw [h1] at h'
        rcases mem_dkeys_loadPrefInner h' with h2 | h2
        · exact Or.inl h2
        · exact Or.inr ⟨kv, List.mem_cons_self _ _, by rw [h2]; exact hp⟩
    · exact Or.inr ⟨kv', List.mem_cons_of_mem _ hm, hp'⟩

theorem takeWhile_all {A : Type} {p : A → Bool} {l : List A}
    (h : ∀ x ∈ l, p x = true) : l.takeWhile p = l := by
  induction l with
  | nil => rfl
  | cons x rest ih =>
    rw [List.takeWhile_cons_of_pos (h x (List.mem_cons_self _ _)),
      ih (fun y hy => h y (List.mem_cons_of_mem _ hy))]

theorem serializeInner_eq_map {d : Dict Int Rat} (h : (dkeys d).Nodup) :
    serializeInner d = d.map (fun kv => (intStr kv.1, kv.2)) := by
  have hnd : (d.map (fun kv : Int × Rat => intStr kv.1)).Nodup := by
    have heq : d.map (fun kv : Int × Rat => intStr kv.1) = (dkeys d).map intStr := by
      rw [dkeys, List.map_map]; rfl
    rw [heq]
    exact h.map (fun a b hab => intStr_injective hab)
  have := foldl_dinsert_enc_eq_append
    (fun kv : Int × Rat => intStr kv.1) (fun kv => kv.2) d []
    (fun x _ hm => List.not_mem_nil _ hm) hnd
  simpa [serializeInner] using this

theorem decInner_map {d : Dict Int Rat} :
    decInner (d.map (fun kv => (intStr kv.1, kv.2))) = d := by
  rw [decInner, takeWhile_all (by
    intro x hx
    obtain ⟨kv, _, rfl⟩ := List.mem_map.mp hx
    simp [parseInt_intStr])]
  rw [List.filterMap_map]
  exact filterMap_eq_self (fun kv _ => by simp [Function.comp, parseInt_intStr])

theorem serializePrefs_eq_map {p : Dict Int (Dict Int Rat)} (h : (dkeys p).Nodup) :
    serializePrefs p = p.map (fun kv => (intStr kv.1, serializeInner kv.2)) := by
  have hnd : (p.map (fun kv : Int × Dict Int Rat => intStr kv.1)).Nodup := by
    have heq : p.map (fun kv : Int × Dict Int Rat => intStr kv.1)
        = (dkeys p).map intStr := by
      rw [dkeys, List.map_map]; rfl
    rw [heq]
    exact h.map (fun a b hab => intStr_injective hab)
  have := foldl_dinsert_enc_eq_append
    (fun kv : Int × Dict Int Rat => intStr kv.1) (fun kv => serializeInner kv.2) p []
    (fun x _ hm => List.not_mem_nil _ hm) hnd
  simpa [serializePrefs] using this

theorem foldl_loadPrefEntry_map {p : Dict Int (Dict Int Rat)}
    {acc : Dict Int (Dict Int Rat)}
    (hout : (dkeys p).Nodup) (hin : ∀ kv ∈ p, (dkeys kv.2).Nodup)
    (hfresh : ∀ kv ∈ p, kv.1 ∉ dkeys acc) :
    (p.map (fun kv => (intStr kv.1, serializeInner kv.2))).foldl loadPrefEntry acc
      = acc ++ p.filter (fun kv => !kv.2.isEmpty) := by
  induction p generalizing acc with
  | nil => simp
  | cons kv rest ih =>
    obtain ⟨u, inner⟩ := kv
    rw [List.map_cons, List.foldl_cons]
    have hstep : loadPrefEntry acc (intStr u, serializeInner inner)
        = loadPrefInner u acc (serializeInner inner) := by
      simp only [loadPrefEntry, parseInt_intStr]
    have hinner : serializeInner inner = inner.map (fun kv => (intStr kv.1, kv.2)) :=
      serializeInner_eq_map (hin (u, inner) (List.mem_cons_self _ _))
    rw [dkeys_cons] at hout
    have hnd := List.nodup_cons.mp hout
    have hintail := fun kv hm => hin kv (List.mem_cons_of_mem _ hm)
    cases inner with
    | nil =>
      have h0 : loadPrefInner u acc (serializeInner ([] : Dict Int Rat)) = acc := rfl
      rw [hstep, h0, ih hnd.2 hintail (fun kv hm => hfresh kv (List.mem_cons_of_mem _ hm))]
      simp [List.filter_cons]
    | cons kv0 l0 =>
      rw [hstep, loadPrefInner_eq, hinner, decInner_map,
        foldl_dset2_of_fresh (hfresh (u, kv0 :: l0) (List.mem_cons_self _ _))]
      have hrebuilt : (kv0 :: l0).foldl (fun c kv => dinsert c kv.1 kv.2) [] = kv0 :: l0 := by
        have := foldl_dinsert_enc_eq_append Prod.fst Prod.snd (kv0 :: l0) []
          (fun x _ hm => List.not_mem_nil _ hm) (hin (u, kv0 :: l0) (List.mem_cons_self _ _))
        simpa using this
      rw [hrebuilt]
      rw [ih hnd.2 hintail ?fresh]
      · simp [List.filter_cons]
      case fresh =>
        intro kv' hm hmem
        rw [show dkeys (acc ++ [(u, kv0 :: l0)]) = dkeys acc ++ [u] by simp [dkeys]] at hmem
        rcases List.mem_append.mp hmem with hmm | hmm
        · exact hfresh kv' (List.mem_cons_of_mem _ hm) hmm
        · exact hnd.1 (by
            rw [← List.mem_singleton.mp hmm]
            exact List.mem_map.mpr ⟨kv', hm, rfl⟩)

theorem mem_dkeys_filter {K V : Type} {pred : K × V → Bool} {l : Dict K V} {w : K}
    (h : w ∈ dkeys (l.filter pred)) : w ∈ dkeys l := by
  rw [dkeys, List.mem_map] at h
  obtain ⟨kv, hm, rfl⟩ := h
  exact List.mem_map.mpr ⟨kv, List.mem_of_mem_filter hm, rfl⟩

theorem dgetD_cons_self {K V : Type} [DecidableEq K] (k : K) (v : V) (d : Dict K V)
    (dflt : V) : dgetD ((k, v) :: d) k dflt = v := by
  simp [dgetD, dlookup]

theorem dgetD_cons_ne {K V : Type} [DecidableEq K] {u k : K} (hu : u ≠ k) (v : V)
    (d : Dict K V) (dflt : V) : dgetD ((k, v) :: d) u dflt = dgetD d u dflt := by
  simp [dgetD, dlookup, hu]

theorem dgetD_of_not_mem {K V : Type} [DecidableEq K] {d : Dict K V} {k : K} {dflt : V}
    (h : k ∉ dkeys d) : dgetD d k dflt = dflt := by
  rw [dgetD, dlookup_of_not_mem h]
  rfl

theorem flatten_filter_lookup {p : Dict Int (Dict Int Rat)} (h : (dkeys p).Nodup)
    (u i : Int) :
    dlookup (dgetD (p.filter (fun kv => !kv.2.isEmpty)) u []) i
      = dlookup (dgetD p u []) i := by
  induction p with
  | nil => rfl
  | cons kv rest ih =>
    obtain ⟨k, inner⟩ := kv
    rw [dkeys_cons] at h
    have hnd := List.nodup_cons.mp h
    by_cases hu : u = k
    · subst hu
      cases inner with
      | nil =>
        have hfc : ((u, ([] : Dict Int Rat)) :: rest).filter (fun kv => !kv.2.isEmpty)
            = rest.filter (fun kv => !kv.2.isEmpty) := by
          simp [List.filter_cons]
        rw [hfc, dgetD_of_not_mem (fun hm => hnd.1 (mem_dkeys_filter hm)), dgetD_cons_self]
      | cons kv0 l0 =>
        have hfc : ((u, kv0 :: l0) :: rest).filter (fun kv => !kv.2.isEmpty)
            = (u, kv0 :: l0) :: rest.filter (fun kv => !kv.2.isEmpty) := by
          simp [List.filter_cons]
        rw [hfc, dgetD_cons_self, dgetD_cons_self]
    · cases inner with
      | nil =>
        have hfc : ((k, ([] : Dict Int Rat)) :: rest).filter (fun kv => !kv.2.isEmpty)
            = rest.filter (fun kv => !kv.2.isEmpty) := by
          simp [List.filter_cons]
        rw [hfc, dgetD_cons_ne hu, ih hnd.2]
      | cons kv0 l0 =>
        have hfc : ((k, kv0 :: l0) :: rest).filter (fun kv => !kv.2.isEmpty)
            = (k, kv0 :: l0) :: rest.filter (fun kv => !kv.2.isEmpty) := by
          simp [List.filter_cons]
        rw [hfc, dgetD_cons_ne hu, dgetD_cons_ne hu, ih hnd.2]

/-! ### Access lemmas for the update operations -/

theorem dgetD_dinsert_self {K V : Type} [DecidableEq K] (d : Dict K V) (k : K) (v dflt : V) :
    dgetD (dinsert d k v) k dflt = v := by
  rw [dgetD, dlookup_dinsert_self]
  rfl

theorem dgetD_dinsert_ne {K V : Type} [DecidableEq K] (d : Dict K V) {k k' : K}
    (v dflt : V) (h : k' ≠ k) : dgetD (dinsert d k v) k' dflt = dgetD d k' dflt := by
  rw [dgetD, dlookup_dinsert_ne _ h, dgetD]

theorem dgetD_dset2_self (d : Dict Int (Dict Int Rat)) (u i : Int) (v : Rat) :
    dgetD (dset2 d u i v) u [] = dinsert (dgetD d u []) i v := by
  rw [dset2, dgetD, dlookup_dinsert_self]
  rfl

theorem dlookup_dset2_ne (d : Dict Int (Dict Int Rat)) {u w i : Int} {v : Rat}
    (h : w ≠ u) : dlookup (dset2 d u i v) w = dlookup d w :=
  dlookup_dinsert_ne _ h

/-! ### Claims -/

/-- **C3** (Selection monotonicity): calling `record_item_selected(U, I)` n
times increases the stored Q-value for `(U, I)` by exactly `n * alpha`
(`alpha = 0.1`), the preference weight for `(U, I)` by exactly `n * 0.2`,
and the popularity of `I` by exactly `n * 0.1`, leaving every other entry
of the three mappings unchanged. -/
theorem C3_selection_monotonicity (s : SimpleRLLoop) (U I : Int) (n : Nat) :
    dgetD (iterSelect n s U I).q_values (U, I) 0
      = dgetD s.q_values (U, I) 0 + n * alpha
    ∧ dgetD (dgetD (iterSelect n s U I).user_preferences U []) I 0
      = dgetD (dgetD s.user_preferences U []) I 0 + n * (1 / 5)
    ∧ dgetD (iterSelect n s U I).item_popularity I 0
      = dgetD s.item_popularity I 0 + n * (1 / 10)
    ∧ (∀ p, p ≠ (U, I) → dlookup (iterSelect n s U I).q_values p = dlookup s.q_values p)
    ∧ (∀ u, u ≠ U →
        dlookup (iterSelect n s U I).user_preferences u = dlookup s.user_preferences u)
    ∧ (∀ i, i ≠ I → dlookup (dgetD (iterSelect n s U I).user_preferences U []) i
        = dlookup (dgetD s.user_preferences U []) i)
    ∧ (∀ i, i ≠ I →
        dlookup (iterSelect n s U I).item_popularity i = dlookup s.item_popularity i) := by
  induction n with
  | zero => simp [iterSelect]
  | succ n ih =>
    obtain ⟨ihq, ihp, ihpop, ihfq, ihfu, ihfi, ihfpop⟩ := ih
    refine ⟨?_, ?_, ?_, ?_, ?_, ?_, ?_⟩
    · show dgetD (record_item_selected (iterSelect n s U I) U I).q_values (U, I) 0 = _
      rw [show (record_item_selected (iterSelect n s U I) U I).q_values
          = dinsert (iterSelect n s U I).q_values (U, I)
            (dgetD (iterSelect n s U I).q_values (U, I) 0 + alpha) from rfl,
        dgetD_dinsert_self, ihq]
      push_cast
      ring
    · show dgetD (dgetD (record_item_selected (iterSelect n s U I) U I).user_preferences
        U []) I 0 = _
      rw [show (record_item_selected (iterSelect n s U I) U I).user_preferences
          = dset2 (iterSelect n s U I).user_preferences U I
            (dgetD (dgetD (iterSelect n s U I).user_preferences U []) I 0 + 1 / 5) from rfl,
        dgetD_dset2_self, dgetD_dinsert_self, ihp]
      push_cast
      ring
    · show dgetD (record_item_selected (iterSelect n s U I) U I).item_popularity I 0 = _
      rw [show (record_item_selected (iterSelect n s U I) U I).item_popularity
          = dinsert (iterSelect n s U I).item_popularity I
            (dgetD (iterSelect n s U I).item_popularity I 0 + 1 / 10) from rfl,
        dgetD_dinsert_self, ihpop]
      push_cast
      ring
    · intro p hp
      show dlookup (dinsert (iterSelect n s U I).q_values (U, I)
        (dgetD (iterSelect n s U I).q_values (U, I) 0 + alpha)) p = _
      rw [dlookup_dinsert_ne _ hp, ihfq p hp]
    · intro u hu
      show dlookup (dset2 (iterSelect n s U I).user_preferences U I
        (dgetD (dgetD (iterSelect n s U I).user_preferences U []) I 0 + 1 / 5)) u = _
      rw [dlookup_dset2_ne _ hu, ihfu u hu]
    · intro i hi
      show dlookup (dgetD (dset2 (iterSelect n s U I).user_preferences U I
        (dgetD (dgetD (iterSelect n s U I).user_preferences U []) I 0 + 1 / 5)) U []) i = _
      rw [dgetD_dset2_self, dlookup_dinsert_ne _ hi, ihfi i hi]
    · intro i hi
      show dlookup (dinsert (iterSelect n s U I).item_popularity I
        (dgetD (iterSelect n s U I).item_popularity I 0 + 1 / 10)) i = _
      rw [dlookup_dinsert_ne _ hi, ihfpop i hi]

/-- Witness for C3 at `s = init`, `U = 1`, `I = 2`, `n = 3`, with the frame
parts instantiated at `(3, 4)`, user `5`, items `7` and `9`. -/
theorem C3_selection_monotonicity_witness :
    dgetD (iterSelect 3 SimpleRLLoop.init 1 2).q_values (1, 2) 0
      = dgetD SimpleRLLoop.init.q_values (1, 2) 0 + 3 * alpha
    ∧ dgetD (dgetD (iterSelect 3 SimpleRLLoop.init 1 2).user_preferences 1 []) 2 0
      = dgetD (dgetD SimpleRLLoop.init.user_preferences 1 []) 2 0 + 3 * (1 / 5)
    ∧ dlookup (iterSelect 3 SimpleRLLoop.init 1 2).q_values (3, 4)
      = dlookup SimpleRLLoop.init.q_values (3, 4)
    ∧ dlookup (iterSelect 3 SimpleRLLoop.init 1 2).user_preferences 5
      = dlookup SimpleRLLoop.init.user_preferences 5
    ∧ dlookup (dgetD (iterSelect 3 SimpleRLLoop.init 1 2).user_preferences 1 []) 7
      = dlookup (dgetD SimpleRLLoop.init.user_preferences 1 []) 7
    ∧ dlookup (iterSelect 3 SimpleRLLoop.init 1 2).item_popularity 9
      = dlookup SimpleRLLoop.init.item_popularity 9 :=
  ⟨(C3_selection_monotonicity SimpleRLLoop.init 1 2 3).1,
   (C3_selection_monotonicity SimpleRLLoop.init 1 2 3).2.1,
   (C3_selection_monotonicity SimpleRLLoop.init 1 2 3).2.2.2.1 (3, 4) (by decide),
   (C3_selection_monotonicity SimpleRLLoop.init 1 2 3).2.2.2.2.1 5 (by decide),
   (C3_selection_monotonicity SimpleRLLoop.init 1 2 3).2.2.2.2.2.1 7 (by decide),
   (C3_selection_monotonicity SimpleRLLoop.init 1 2 3).2.2.2.2.2.2 9 (by decide)⟩

/-- **C4** (Feedback normalization equivalence): from the same store state,
`record_user_feedback(U, I, 4.5)` produces exactly the same resulting state
as `record_user_feedback(U, I, 0.9)`; in general a feedback score `s > 1`
is first divided by 5 and the result `f` is applied as Q-value increment
`f * alpha` and preference increment `f` (which is what `feedbackApply`,
the post-normalization body, does). -/
theorem C4_feedback_normalization :
    (∀ (s : SimpleRLLoop) (U I : Int),
      record_user_feedback s U I (9 / 2) = record_user_feedback s U I (9 / 10))
    ∧ (∀ (s : SimpleRLLoop) (U I : Int) (score : Rat), score > 1 →
      record_user_feedback s U I score = feedbackApply s U I (score / 5)) := by
  constructor
  · intro s U I
    rw [record_user_feedback, record_user_feedback,
      if_pos (by norm_num : (9 : Rat) / 2 > 1), if_neg (by norm_num : ¬((9 : Rat) / 10 > 1))]
    congr 1
    norm_num
  · intro s U I score h
    rw [record_user_feedback, if_pos h]

/-- Witness for C4: the 4.5 / 0.9 equivalence at the fresh store, and the
general normalization applied to score 3. -/
theorem C4_feedback_normalization_witness :
    record_user_feedback SimpleRLLoop.init 1 2 (9 / 2)
      = record_user_feedback SimpleRLLoop.init 1 2 (9 / 10)
    ∧ record_user_feedback SimpleRLLoop.init 1 2 3
      = feedbackApply SimpleRLLoop.init 1 2 (3 / 5) :=
  ⟨C4_feedback_normalization.1 SimpleRLLoop.init 1 2,
   C4_feedback_normalization.2 SimpleRLLoop.init 1 2 3 (by norm_num)⟩

/-- **C5 counterexample**: a feedback score of 10 is greater than 1, but its
"normalized" value 10/5 = 2 is outside [0, 1], and 2 is exactly what gets
added to the preference store — refuting the claim that every feedback
score above 1 is normalized into [0, 1] before being applied. -/
theorem C5_finite_scores_counterexample :
    dgetD (dgetD (record_user_feedback SimpleRLLoop.init 1 2 10).user_preferences 1 []) 2 0
      = 2
    ∧ ¬(dgetD (dgetD (record_user_feedback SimpleRLLoop.init 1 2 10).user_preferences 1 [])
        2 0 ≤ 1) := by
  constructor
  · norm_num [record_user_feedback, feedbackApply, dset2, dgetD, dlookup, dinsert,
      SimpleRLLoop.init]
  · norm_num [record_user_feedback, feedbackApply, dset2, dgetD, dlookup, dinsert,
      SimpleRLLoop.init]

/-- **C5 amended**: in the exact-rational model every stored value is by
construction a finite rational, and a feedback score in the interval (1, 5]
is normalized into [0, 1] before being applied; a score above 5 is still
divided by 5 but the applied value exceeds 1 (see the counterexample). -/
theorem C5_feedback_normalization_range (s : SimpleRLLoop) (U I : Int) (score : Rat)
    (h1 : 1 < score) (h5 : score ≤ 5) :
    record_user_feedback s U I score = feedbackApply s U I (score / 5)
    ∧ 0 ≤ score / 5 ∧ score / 5 ≤ 1 := by
  refine ⟨by rw [record_user_feedback, if_pos h1], ?_, ?_⟩
  · exact div_nonneg (le_of_lt (lt_trans zero_lt_one h1)) (by norm_num)
  · exact (div_le_one (by norm_num)).mpr h5

/-- Witness for C5's amended theorem at score 4. -/
theorem C5_feedback_normalization_range_witness :
    record_user_feedback SimpleRLLoop.init 1 2 4 = feedbackApply SimpleRLLoop.init 1 2 (4 / 5)
    ∧ (0 : Rat) ≤ 4 / 5 ∧ (4 : Rat) / 5 ≤ 1 :=
  C5_feedback_normalization_range SimpleRLLoop.init 1 2 4 (by norm_num) (by norm_num)

/-- **C7 counterexample**: with a non-empty store, `load_state` on a missing
file leaves the previous Q-values in place rather than emptying them — the
reset assignments (lines 274, 283, 294) only run after a successful
open/parse, while `FileNotFoundError` is raised by `open` (line 268) and
caught (line 307). -/
theorem C7_cold_start_counterexample :
    (load_state ⟨[((1, 2), 3 / 10)], [], []⟩ FileRead.missing).q_values ≠ [] := by
  simp [load_state]

/-- **C7 amended**: `load_state` on a nonexistent file raises no error and
leaves all three mappings unchanged — in particular they remain empty
exactly when the store was freshly constructed (the scenario the spec's
fresh-start wording describes). -/
theorem C7_cold_start_unchanged (s : SimpleRLLoop) :
    load_state s FileRead.missing = s := rfl

/-- **C9**: `save_state` never propagates an exception (it is a total
function of the state and the modelled write outcome: on failure the
handler at lines 258-261 only logs), and after the call — whether the write
succeeded or failed — the in-memory `q_values`, `user_preferences` and
`item_popularity` are exactly what they were before. -/
theorem C9_save_preserves_state (s : SimpleRLLoop) (writeOk : Bool) :
    (save_state s writeOk).2.q_values = s.q_values
    ∧ (save_state s writeOk).2.user_preferences = s.user_preferences
    ∧ (save_state s writeOk).2.item_popularity = s.item_popularity := by
  cases writeOk <;> exact ⟨rfl, rfl, rfl⟩

theorem recScore_foldl_state (user_id : Int) (user_prefs : Dict Int Rat)
    (l : List CatalogItem) (acc : List ScoredItem × SimpleRLLoop) :
    (l.foldl (recScoreStep user_id user_prefs) acc).2 = acc.2 := by
  induction l generalizing acc with
  | nil => rfl
  | cons it rest ih =>
    rw [List.foldl_cons, ih]
    rfl

/-- **C10**: `get_personalized_recommendations` leaves `q_values`,
`user_preferences` and `item_popularity` entirely unchanged: every read in
the scoring loop is a `.get` with default (lines 151, 158, 161, 164), so no
zero-valued entry is materialized for unseen (user, item) pairs. -/
theorem C10_recommend_read_only (s : SimpleRLLoop) (user_id : Int)
    (available_items : List CatalogItem) (exploreRoll : Bool) (sample : List ScoredItem) :
    (get_personalized_recommendations s user_id available_items exploreRoll sample).2 = s := by
  show (available_items.foldl
    (recScoreStep user_id (dgetD s.user_preferences user_id [])) ([], s)).2 = s
  exact recScore_foldl_state _ _ _ _

theorem applyOrderItem_frame {U : Int} {r : Rat} {s : SimpleRLLoop} {it : OrderItem}
    {i : Int} (h : it.item_id ≠ i) :
    dgetD (applyOrderItem U r s it).q_values (U, i) 0 = dgetD s.q_values (U, i) 0
    ∧ dgetD (dgetD (applyOrderItem U r s it).user_preferences U []) i 0
      = dgetD (dgetD s.user_preferences U []) i 0
    ∧ dgetD (applyOrderItem U r s it).item_popularity i 0
      = dgetD s.item_popularity i 0 := by
  have hpair : ((U, i) : Int × Int) ≠ (U, it.item_id) :=
    fun he => h (congrArg Prod.snd he).symm
  refine ⟨?_, ?_, ?_⟩
  · exact dgetD_dinsert_ne _ _ _ hpair
  · rw [show (applyOrderItem U r s it).user_preferences
        = dset2 s.user_preferences U it.item_id
          (dgetD (dgetD s.user_preferences U []) it.item_id 0 + r) from rfl,
      dgetD_dset2_self, dgetD_dinsert_ne _ _ _ (fun he => h he.symm)]
  · exact dgetD_dinsert_ne _ _ _ (fun he => h he.symm)

theorem foldl_applyOrderItem_not_mem {U : Int} {r : Rat} {l : List OrderItem}
    {s : SimpleRLLoop} {i : Int} (h : ∀ it ∈ l, it.item_id ≠ i) :
    dgetD (l.foldl (applyOrderItem U r) s).q_values (U, i) 0 = dgetD s.q_values (U, i) 0
    ∧ dgetD (dgetD (l.foldl (applyOrderItem U r) s).user_preferences U []) i 0
      = dgetD (dgetD s.user_preferences U []) i 0
    ∧ dgetD (l.foldl (applyOrderItem U r) s).item_popularity i 0
      = dgetD s.item_popularity i 0 := by
  induction l generalizing s with
  | nil => exact ⟨rfl, rfl, rfl⟩
  | cons it rest ih =>
    rw [List.foldl_cons]
    obtain ⟨sq, sp, spop⟩ := applyOrderItem_frame (s := s) (r := r) (U := U)
      (h it (List.mem_cons_self _ _))
    obtain ⟨ihq, ihp, ihpop⟩ := ih (fun it' hm => h it' (List.mem_cons_of_mem _ hm))
      (s := applyOrderItem U r s it)
    exact ⟨ihq.trans sq, ihp.trans sp, ihpop.trans spop⟩

theorem foldl_applyOrderItem_mem {U : Int} {r : Rat} {l : List OrderItem}
    {s : SimpleRLLoop} (hnd : (l.map OrderItem.item_id).Nodup) {it : OrderItem}
    (hm : it ∈ l) :
    dgetD (l.foldl (applyOrderItem U r) s).q_values (U, it.item_id) 0
      = dgetD s.q_values (U, it.item_id) 0 + r
    ∧ dgetD (dgetD (l.foldl (applyOrderItem U r) s).user_preferences U []) it.item_id 0
      = dgetD (dgetD s.user_preferences U []) it.item_id 0 + r
    ∧ dgetD (l.foldl (applyOrderItem U r) s).item_popularity it.item_id 0
      = dgetD s.item_popularity it.item_id 0 + it.quantity * (1 / 2) := by
  induction l generalizing s with
  | nil => cases hm
  | cons it0 rest ih =>
    rw [List.foldl_cons]
    rw [List.map_cons] at hnd
    have hnd' := List.nodup_cons.mp hnd
    rcases List.mem_cons.mp hm with rfl | hm'
    · have hnotin : ∀ it' ∈ rest, it'.item_id ≠ it.item_id := fun it' hmem he =>
        hnd'.1 (List.mem_map.mpr ⟨it', hmem, he⟩)
      obtain ⟨fq, fp, fpop⟩ := foldl_applyOrderItem_not_mem hnotin
        (s := applyOrderItem U r s it)
      refine ⟨?_, ?_, ?_⟩
      · rw [fq]
        exact dgetD_dinsert_self _ _ _ _
      · rw [fp, show (applyOrderItem U r s it).user_preferences
            = dset2 s.user_preferences U it.item_id
              (dgetD (dgetD s.user_preferences U []) it.item_id 0 + r) from rfl,
          dgetD_dset2_self, dgetD_dinsert_self]
      · rw [fpop]
        exact dgetD_dinsert_self _ _ _ _
    · have hne : it0.item_id ≠ it.item_id := fun he =>
        hnd'.1 (List.mem_map.mpr ⟨it, hm', he.symm⟩)
      obtain ⟨sq, sp, spop⟩ := applyOrderItem_frame (s := s) (r := r) (U := U) hne
      obtain ⟨eq1, ep1, epop1⟩ := ih hnd'.2 hm' (s := applyOrderItem U r s it0)
      exact ⟨eq1.trans (by rw [sq]), ep1.trans (by rw [sp]), epop1.trans (by rw [spop])⟩

/-- **C2** (Order-completion postcondition): `record_order_completed`
computes reward = 1.0, plus 0.5 if the order total exceeds 500, plus 0.3 if
the order has more than 3 line items (both bonuses can apply); it adds this
full unscaled reward to the Q-value and the preference weight of every line
item's (user, item) pair, adds `quantity * 0.5` to each item's popularity,
and returns a record `{user_id, reward, items_count, order_total,
timestamp}`.  (The per-line-item effects are stated for orders whose line
items carry distinct item identifiers, as a repeated identifier accumulates
one increment per occurrence.) -/
theorem C2_order_completion (s : SimpleRLLoop) (U : Int) (order : OrderData) (now : PyStr)
    (hnd : (order.items.map OrderItem.item_id).Nodup) :
    (record_order_completed s U order now).1.reward
      = 1 + (if order.total > 500 then 1 / 2 else 0)
          + (if order.items.length > 3 then 3 / 10 else 0)
    ∧ (record_order_completed s U order now).1.user_id = U
    ∧ (record_order_completed s U order now).1.items_count = order.items.length
    ∧ (record_order_completed s U order now).1.order_total = order.total
    ∧ (record_order_completed s U order now).1.timestamp = now
    ∧ ∀ it ∈ order.items,
        dgetD (record_order_completed s U order now).2.q_values (U, it.item_id) 0
          = dgetD s.q_values (U, it.item_id) 0 + orderReward order
        ∧ dgetD (dgetD (record_order_completed s U order now).2.user_preferences U [])
            it.item_id 0
          = dgetD (dgetD s.user_preferences U []) it.item_id 0 + orderReward order
        ∧ dgetD (record_order_completed s U order now).2.item_popularity it.item_id 0
          = dgetD s.item_popularity it.item_id 0 + it.quantity * (1 / 2) := by
  refine ⟨rfl, rfl, rfl, rfl, rfl, ?_⟩
  intro it hm
  exact foldl_applyOrderItem_mem hnd hm

/-- Witness for C2: the spec's own example — items A=2 (qty 2), B=3 (qty 1),
total 600, so reward 1.5 — instantiated at item A from the fresh store. -/
theorem C2_order_completion_witness :
    (record_order_completed SimpleRLLoop.init 1 ⟨[⟨2, 2⟩, ⟨3, 1⟩], 600⟩ []).1.reward
      = 1 + (if (600 : Rat) > 500 then 1 / 2 else 0)
          + (if ([(⟨2, 2⟩ : OrderItem), ⟨3, 1⟩].length > 3) then 3 / 10 else 0)
    ∧ dgetD (record_order_completed SimpleRLLoop.init 1
          ⟨[⟨2, 2⟩, ⟨3, 1⟩], 600⟩ []).2.q_values (1, 2) 0
        = dgetD SimpleRLLoop.init.q_values (1, 2) 0 + orderReward ⟨[⟨2, 2⟩, ⟨3, 1⟩], 600⟩
    ∧ dgetD (record_order_completed SimpleRLLoop.init 1
          ⟨[⟨2, 2⟩, ⟨3, 1⟩], 600⟩ []).2.item_popularity 2 0
        = dgetD SimpleRLLoop.init.item_popularity 2 0 + (2 : Int) * (1 / 2) :=
  ⟨(C2_order_completion SimpleRLLoop.init 1 ⟨[⟨2, 2⟩, ⟨3, 1⟩], 600⟩ [] (by decide)).1,
   ((C2_order_completion SimpleRLLoop.init 1 ⟨[⟨2, 2⟩, ⟨3, 1⟩], 600⟩ [] (by decide)).2.2.2.2.2
      ⟨2, 2⟩ (by decide)).1,
   ((C2_order_completion SimpleRLLoop.init 1 ⟨[⟨2, 2⟩, ⟨3, 1⟩], 600⟩ [] (by decide)).2.2.2.2.2
      ⟨2, 2⟩ (by decide)).2.2⟩

theorem length_insertDesc (x : ScoredItem) (l : List ScoredItem) :
    (insertDesc x l).length = l.length + 1 := by
  induction l with
  | nil => rfl
  | cons y ys ih =>
    rw [insertDesc]
    split
    · simp
    · simp [ih]

theorem length_isortDesc (l : List ScoredItem) : (isortDesc l).length = l.length := by
  induction l with
  | nil => rfl
  | cons x xs ih => rw [isortDesc, length_insertDesc, ih, List.length_cons]

theorem recScore_foldl_length (user_id : Int) (user_prefs : Dict Int Rat)
    (l : List CatalogItem) (acc : List ScoredItem × SimpleRLLoop) :
    (l.foldl (recScoreStep user_id user_prefs) acc).1.length = acc.1.length + l.length := by
  induction l generalizing acc with
  | nil => rfl
  | cons it rest ih =>
    rw [List.foldl_cons, ih]
    simp only [recScoreStep, List.length_append, List.length_cons, List.length_nil]
    omega

theorem get_personalized_recommendations_eq (s : SimpleRLLoop) (user_id : Int)
    (available_items : List CatalogItem) (exploreRoll : Bool) (sample : List ScoredItem) :
    get_personalized_recommendations s user_id available_items exploreRoll sample
      = ((if exploreRoll ∧ (available_items.foldl (recScoreStep user_id
            (dgetD s.user_preferences user_id [])) ([], s)).1.length > 3 then
            (isortDesc (available_items.foldl (recScoreStep user_id
              (dgetD s.user_preferences user_id [])) ([], s)).1).take 3 ++ sample
          else
            isortDesc (available_items.foldl (recScoreStep user_id
              (dgetD s.user_preferences user_id [])) ([], s)).1).take 5,
         (available_items.foldl (recScoreStep user_id
            (dgetD s.user_preferences user_id [])) ([], s)).2) := rfl

/-- **C8 counterexample**: with exactly 4 candidates, an exploration roll
below epsilon, and a 2-element `random.sample` draw, the call returns
3 + 2 = 5 items (a duplicate included) rather than exactly 4 — refuting
"k ≤ 5 candidates yield exactly k results" at k = 4. -/
theorem C8_recommendation_length_counterexample :
    ([(⟨1, 0⟩ : CatalogItem), ⟨2, 0⟩, ⟨3, 0⟩, ⟨4, 0⟩].length = 4)
    ∧ (get_personalized_recommendations SimpleRLLoop.init 1
        [⟨1, 0⟩, ⟨2, 0⟩, ⟨3, 0⟩, ⟨4, 0⟩] true
        [⟨⟨1, 0⟩, 0, 0, 0⟩, ⟨⟨2, 0⟩, 0, 0, 0⟩]).1.length = 5 := by
  constructor
  · rfl
  · have hsc : ([(⟨1, 0⟩ : CatalogItem), ⟨2, 0⟩, ⟨3, 0⟩, ⟨4, 0⟩].foldl
        (recScoreStep 1 (dgetD SimpleRLLoop.init.user_preferences 1 []))
        ([], SimpleRLLoop.init)).1.length = 4 := by
      rw [recScore_foldl_length]
      rfl
    rw [get_personalized_recommendations_eq, if_pos ⟨rfl, by rw [hsc]; omega⟩,
      List.length_take, List.length_append, List.length_take, length_isortDesc, hsc]
    rfl

/-- **C8 amended**: `get_personalized_recommendations` is total (no
exception for well-typed input) and always returns at most 5 items; it
returns exactly `k = |candidates|` items when `k ≤ 5` and either the
epsilon roll fails or `k ≤ 3` (so the exploration branch is not taken);
when the exploration branch is taken (`k > 3`, 2-element sample) it returns
exactly 5 items — 3 best plus 2 sampled, possibly with duplicates — even
when `k = 4`. -/
theorem C8_recommendation_length (s : SimpleRLLoop) (user_id : Int)
    (available_items : List CatalogItem) (exploreRoll : Bool) (sample : List ScoredItem) :
    (get_personalized_recommendations s user_id available_items exploreRoll sample).1.length
      ≤ 5
    ∧ ((exploreRoll = false ∨ available_items.length ≤ 3) → available_items.length ≤ 5 →
        (get_personalized_recommendations s user_id available_items exploreRoll
          sample).1.length = available_items.length)
    ∧ (exploreRoll = true → 3 < available_items.length → sample.length = 2 →
        (get_personalized_recommendations s user_id available_items exploreRoll
          sample).1.length = 5) := by
  have hsc : (available_items.foldl (recScoreStep user_id
      (dgetD s.user_preferences user_id [])) ([], s)).1.length
      = available_items.length := by
    rw [recScore_foldl_length]
    simp
  refine ⟨?_, ?_, ?_⟩
  · rw [get_personalized_recommendations_eq]
    by_cases hc : exploreRoll = true ∧ (available_items.foldl (recScoreStep user_id
        (dgetD s.user_preferences user_id [])) ([], s)).1.length > 3
    · rw [if_pos hc]
      simp [List.length_take]
    · rw [if_neg hc]
      simp [List.length_take]
  · intro hbranch hk
    rw [get_personalized_recommendations_eq,
      if_neg (by
        rcases hbranch with hb | hb
        · rintro ⟨h1, _⟩
          rw [hb] at h1
          exact Bool.false_ne_true h1
        · rintro ⟨_, h2⟩
          rw [hsc] at h2
          omega)]
    simp [List.length_take, length_isortDesc, hsc]
    omega
  · intro he hgt hslen
    rw [get_personalized_recommendations_eq, if_pos ⟨he, by rw [hsc]; omega⟩]
    simp [List.length_take, List.length_append, length_isortDesc, hsc, hslen]
    omega

/-- Witness for C8's amended theorem: 2 candidates without exploration give
exactly 2 results; 6 candidates with exploration and a 2-element sample give
exactly 5. -/
theorem C8_recommendation_length_witness :
    (get_personalized_recommendations SimpleRLLoop.init 1
      [⟨1, 0⟩, ⟨2, 0⟩] false []).1.length = 2
    ∧ (get_personalized_recommendations SimpleRLLoop.init 1
      [⟨1, 0⟩, ⟨2, 0⟩, ⟨3, 0⟩, ⟨4, 0⟩, ⟨5, 0⟩, ⟨6, 0⟩] true
      [⟨⟨1, 0⟩, 0, 0, 0⟩, ⟨⟨2, 0⟩, 0, 0, 0⟩]).1.length = 5 :=
  ⟨(C8_recommendation_length SimpleRLLoop.init 1 [⟨1, 0⟩, ⟨2, 0⟩] false []).2.1
      (Or.inl rfl) (by decide),
   (C8_recommendation_length SimpleRLLoop.init 1
      [⟨1, 0⟩, ⟨2, 0⟩, ⟨3, 0⟩, ⟨4, 0⟩, ⟨5, 0⟩, ⟨6, 0⟩] true
      [⟨⟨1, 0⟩, 0, 0, 0⟩, ⟨⟨2, 0⟩, 0, 0, 0⟩]).2.2 rfl (by decide) rfl⟩

/-- **C1** (Persistence round-trip): for every store state whose mappings
have the well-formedness every real Python dict has (no duplicate keys at
either level — every state reachable through the documented mutation
operations satisfies this), writing the document `save_state` produces and
then running `load_state` on it reproduces every (key, value) pair of all
three mappings: `q_values` and `item_popularity` are restored verbatim, and
`user_preferences` agrees on every flattened `(user, item)` lookup (a user
whose inner dict is empty — unreachable through the mutation operations,
which always write an item when touching a user — carries no pairs and is
the one shape dropped by the rebuild). -/
theorem C1_persistence_roundtrip (s sPrev : SimpleRLLoop)
    (hq : (dkeys s.q_values).Nodup)
    (hpu : (dkeys s.user_preferences).Nodup)
    (hpi : ∀ kv ∈ s.user_preferences, (dkeys kv.2).Nodup)
    (hpop : (dkeys s.item_popularity).Nodup) :
    (load_state sPrev (FileRead.ok (save_stateDoc s))).q_values = s.q_values
    ∧ (load_state sPrev (FileRead.ok (save_stateDoc s))).item_popularity
      = s.item_popularity
    ∧ ∀ u i, dlookup (dgetD (load_state sPrev
          (FileRead.ok (save_stateDoc s))).user_preferences u []) i
        = dlookup (dgetD s.user_preferences u []) i := by
  refine ⟨?_, ?_, ?_⟩
  · show (save_stateDoc s).q_values.foldl loadQEntry [] = s.q_values
    rw [show (save_stateDoc s).q_values = serializeQ s.q_values from rfl]
    exact loadQ_roundtrip hq
  · show (save_stateDoc s).item_popularity.foldl loadPopEntry [] = s.item_popularity
    rw [show (save_stateDoc s).item_popularity = serializePop s.item_popularity from rfl]
    exact loadPop_roundtrip hpop
  · intro u i
    show dlookup (dgetD ((save_stateDoc s).user_preferences.foldl loadPrefEntry []) u []) i
      = _
    rw [show (save_stateDoc s).user_preferences = serializePrefs s.user_preferences from rfl,
      serializePrefs_eq_map hpu,
      foldl_loadPrefEntry_map hpu hpi (fun kv _ hm => List.not_mem_nil _ hm),
      List.nil_append]
    exact flatten_filter_lookup hpu u i

/-- Witness for C1: a store with one Q-value, one user with one preference,
and one popularity-only item (no per-user entries), round-tripped. -/
theorem C1_persistence_roundtrip_witness :
    (load_state SimpleRLLoop.init (FileRead.ok (save_stateDoc
        ⟨[((1, 2), 3 / 10)], [(1, [(2, 1 / 5)])], [(2, 1 / 10), (7, 2)]⟩))).q_values
      = [((1, 2), 3 / 10)]
    ∧ (load_state SimpleRLLoop.init (FileRead.ok (save_stateDoc
        ⟨[((1, 2), 3 / 10)], [(1, [(2, 1 / 5)])], [(2, 1 / 10), (7, 2)]⟩))).item_popularity
      = [(2, 1 / 10), (7, 2)]
    ∧ dlookup (dgetD (load_state SimpleRLLoop.init (FileRead.ok (save_stateDoc
        ⟨[((1, 2), 3 / 10)], [(1, [(2, 1 / 5)])], [(2, 1 / 10), (7, 2)]⟩))).user_preferences
        1 []) 2
      = dlookup (dgetD ([(1, [(2, 1 / 5)])] :
          Dict Int (Dict Int Rat)) 1 []) 2 :=
  ⟨(C1_persistence_roundtrip ⟨[((1, 2), 3 / 10)], [(1, [(2, 1 / 5)])], [(2, 1 / 10), (7, 2)]⟩
      SimpleRLLoop.init (by decide) (by decide)
      (by intro kv hm; obtain rfl := List.mem_singleton.mp hm; decide) (by decide)).1,
   (C1_persistence_roundtrip ⟨[((1, 2), 3 / 10)], [(1, [(2, 1 / 5)])], [(2, 1 / 10), (7, 2)]⟩
      SimpleRLLoop.init (by decide) (by decide)
      (by intro kv hm; obtain rfl := List.mem_singleton.mp hm; decide) (by decide)).2.1,
   (C1_persistence_roundtrip ⟨[((1, 2), 3 / 10)], [(1, [(2, 1 / 5)])], [(2, 1 / 10), (7, 2)]⟩
      SimpleRLLoop.init (by decide) (by decide)
      (by intro kv hm; obtain rfl := List.mem_singleton.mp hm; decide) (by decide)).2.2 1 2⟩

theorem dkeys_decodeQ (l : List (PyStr × Rat)) :
    dkeys (decodeQ l) = l.filterMap (fun kv => parseQKey kv.1) := by
  induction l with
  | nil => rfl
  | cons kv rest ih =>
    rw [decodeQ, List.filterMap_cons, List.filterMap_cons]
    cases h : parseQKey kv.1 with
    | none =>
      simp only [h, Option.map_none']
      exact ih
    | some ui =>
      simp only [h, Option.map_some']
      rw [dkeys_cons]
      exact congrArg (List.cons ui) ih

theorem dkeys_decodePop (l : List (PyStr × Rat)) :
    dkeys (decodePop l) = l.filterMap (fun kv => parseInt kv.1) := by
  induction l with
  | nil => rfl
  | cons kv rest ih =>
    rw [decodePop, List.filterMap_cons, List.filterMap_cons]
    cases h : parseInt kv.1 with
    | none =>
      simp only [h, Option.map_none']
      exact ih
    | some i =>
      simp only [h, Option.map_some']
      rw [dkeys_cons]
      exact congrArg (List.cons i) ih

theorem loadQ_eq_decodeQ {l : List (PyStr × Rat)}
    (h : (l.filterMap (fun kv => parseQKey kv.1)).Nodup) :
    l.foldl loadQEntry [] = decodeQ l := by
  rw [foldl_loadQEntry_eq]
  have hnd : (dkeys (decodeQ l)).Nodup := by rw [dkeys_decodeQ]; exact h
  have := foldl_dinsert_enc_eq_append Prod.fst Prod.snd (decodeQ l) []
    (fun x _ hm => List.not_mem_nil _ hm) hnd
  simpa using this

theorem loadPop_eq_decodePop {l : List (PyStr × Rat)}
    (h : (l.filterMap (fun kv => parseInt kv.1)).Nodup) :
    l.foldl loadPopEntry [] = decodePop l := by
  rw [foldl_loadPopEntry_eq]
  have hnd : (dkeys (decodePop l)).Nodup := by rw [dkeys_decodePop]; exact h
  have := foldl_dinsert_enc_eq_append Prod.fst Prod.snd (decodePop l) []
    (fun x _ hm => List.not_mem_nil _ hm) hnd
  simpa using this

theorem takeWhile_append_cons {A : Type} {p : A → Bool} {pre : List A} {x : A}
    {post : List A} (hpre : ∀ e ∈ pre, p e = true) (hx : p x = true) :
    (pre ++ x :: post).takeWhile p = pre ++ x :: post.takeWhile p := by
  induction pre with
  | nil => rw [List.nil_append, List.takeWhile_cons_of_pos hx, List.nil_append]
  | cons a rest ih =>
    rw [List.cons_append, List.takeWhile_cons_of_pos (hpre a (List.mem_cons_self _ _)),
      ih (fun e he => hpre e (List.mem_cons_of_mem _ he)), List.cons_append]

theorem mem_decInner {pre : List (PyStr × Rat)} {mid : PyStr × Rat}
    {post : List (PyStr × Rat)} {i : Int}
    (hpre : ∀ e ∈ pre, (parseInt e.1).isSome = true) (hmid : parseInt mid.1 = some i) :
    (i, mid.2) ∈ decInner (pre ++ mid :: post) := by
  rw [decInner, takeWhile_append_cons hpre (by rw [hmid]; rfl),
    List.filterMap_append, List.filterMap_cons]
  simp only [hmid, Option.map_some']
  exact List.mem_append.mpr (Or.inr (List.mem_cons_self _ _))

/-- **C6 counterexample**: a structurally well-formed document whose
`user_preferences` section for user "1" holds a malformed item key "abc"
followed by the well-formed entry ("2", 3).  The malformed key raises
inside the per-user `try` (line 288), abandoning the rest of that user's
entries, so the well-formed entry ("2", 3) is *not* restored — refuting
"restores every well-formed entry of ... user_preferences". -/
theorem C6_corruption_counterexample :
    parseInt ['2'] = some 2
    ∧ dlookup (dgetD (load_state SimpleRLLoop.init (FileRead.ok
        ⟨[], [(['1'], [(['a', 'b', 'c'], 1), (['2'], 3)])], []⟩)).user_preferences 1 []) 2
      = none := by
  constructor
  · decide
  · decide

/-- **C6 amended**: `load_state` raises no exception on a structurally
well-formed document with malformed keys (it is a total function), skips
each malformed `q_values` or `item_popularity` entry individually and
restores every well-formed entry of those two sections; for
`user_preferences`, a malformed user key skips that user, and within one
user's section entries are restored up to the first malformed item key —
entries after it are dropped (see the counterexample) while other users are
unaffected.  Distinctness of the decoded keys rules out two different
encodings of the same key (e.g. "37" and "3_7") overwriting one another,
and the ASCII hypotheses restrict the statement to the domain on which the
`parseInt` model of Python's `int()` is exact (Python additionally accepts
non-ASCII decimal digits and whitespace); they are model-fidelity domain
conditions, not used by the proof about the model itself. -/
theorem C6_corruption_tolerance (doc : RLStateFile) (sPrev : SimpleRLLoop)
    (_hasciiQ : ∀ kv ∈ doc.q_values, isAsciiStr kv.1 = true)
    (_hasciiPop : ∀ kv ∈ doc.item_popularity, isAsciiStr kv.1 = true)
    (_hasciiU : ∀ kv ∈ doc.user_preferences,
      isAsciiStr kv.1 = true ∧ ∀ e ∈ kv.2, isAsciiStr e.1 = true)
    (hq : (doc.q_values.filterMap (fun kv => parseQKey kv.1)).Nodup)
    (hpop : (doc.item_popularity.filterMap (fun kv => parseInt kv.1)).Nodup)
    (hpu : (doc.user_preferences.filterMap (fun kv => parseInt kv.1)).Nodup)
    (hpin : ∀ kv ∈ doc.user_preferences, (dkeys (decInner kv.2)).Nodup) :
    (∀ kv ∈ doc.q_values, ∀ u i, parseQKey kv.1 = some (u, i) →
      dlookup (load_state sPrev (FileRead.ok doc)).q_values (u, i) = some kv.2)
    ∧ (∀ kv ∈ doc.item_popularity, ∀ i, parseInt kv.1 = some i →
      dlookup (load_state sPrev (FileRead.ok doc)).item_popularity i = some kv.2)
    ∧ (∀ kv ∈ doc.user_preferences, ∀ u, parseInt kv.1 = some u →
      ∀ pre mid post, kv.2 = pre ++ mid :: post →
      (∀ e ∈ pre, (parseInt e.1).isSome = true) → ∀ i, parseInt mid.1 = some i →
      dlookup (dgetD (load_state sPrev (FileRead.ok doc)).user_preferences u []) i
        = some mid.2) := by
  refine ⟨?_, ?_, ?_⟩
  · intro kv hm u i hp
    show dlookup (doc.q_values.foldl loadQEntry []) (u, i) = some kv.2
    rw [loadQ_eq_decodeQ hq]
    refine dlookup_eq_of_mem_nodup ?_ ?_
    · rw [dkeys_decodeQ]
      exact hq
    · exact List.mem_filterMap.mpr ⟨kv, hm, by rw [hp]; rfl⟩
  · intro kv hm i hp
    show dlookup (doc.item_popularity.foldl loadPopEntry []) i = some kv.2
    rw [loadPop_eq_decodePop hpop]
    refine dlookup_eq_of_mem_nodup ?_ ?_
    · rw [dkeys_decodePop]
      exact hpop
    · exact List.mem_filterMap.mpr ⟨kv, hm, by rw [hp]; rfl⟩
  · intro kv hm u hpu1 pre mid post hsplit hpre i hmid
    obtain ⟨preU, postU, hdoc⟩ := List.append_of_mem hm
    have hpin1 := hpin kv hm
    show dlookup (dgetD (doc.user_preferences.foldl loadPrefEntry []) u []) i = some mid.2
    rw [hdoc, List.foldl_append, List.foldl_cons]
    rw [hdoc, List.filterMap_append, List.filterMap_cons] at hpu
    simp only [hpu1] at hpu
    have hpuSplit := List.nodup_append.mp hpu
    have hufresh : u ∉ dkeys (preU.foldl loadPrefEntry ([] : Dict Int (Dict Int Rat))) := by
      intro hmem
      rcases mem_dkeys_foldl_loadPrefEntry hmem with h0 | ⟨kv', hm', hp'⟩
      · exact List.not_mem_nil _ h0
      · exact hpuSplit.2.2 (List.mem_filterMap.mpr ⟨kv', hm', hp'⟩)
          (List.mem_cons_self _ _)
    have hpost : ∀ kv' ∈ postU, parseInt kv'.1 ≠ some u := by
      intro kv' hm' hp'
      exact (List.nodup_cons.mp hpuSplit.2.1).1
        (List.mem_filterMap.mpr ⟨kv', hm', hp'⟩)
    have hstep : loadPrefEntry (preU.foldl loadPrefEntry []) kv
        = loadPrefInner u (preU.foldl loadPrefEntry []) kv.2 := by
      simp only [loadPrefEntry, hpu1]
    rw [hstep, dgetD, dlookup_foldl_loadPrefEntry_ne hpost, hsplit, loadPrefInner_eq]
    have hmem2 : (i, mid.2) ∈ decInner (pre ++ mid :: post) := mem_decInner hpre hmid
    rcases hdi : decInner (pre ++ mid :: post) with _ | ⟨kv0, l0⟩
    · rw [hdi] at hmem2
      exact absurd hmem2 (List.not_mem_nil _)
    · rw [foldl_dset2_of_fresh hufresh, dlookup_append_singleton _ hufresh,
        Option.getD_some]
      rw [hsplit, hdi] at hpin1
      have hrebuilt : (kv0 :: l0).foldl (fun c kv => dinsert c kv.1 kv.2) [] = kv0 :: l0 := by
        have := foldl_dinsert_enc_eq_append Prod.fst Prod.snd (kv0 :: l0) []
          (fun x _ hmm => List.not_mem_nil _ hmm) hpin1
        simpa using this
      rw [hrebuilt]
      rw [hdi] at hmem2
      exact dlookup_eq_of_mem_nodup hpin1 hmem2

/-- Witness for C6's amended theorem: a document with a malformed Q-value
key "ab", a malformed popularity key "x", and a preference section whose
well-formed entries precede any malformed item key; the well-formed Q-value
("1_2"), popularity ("4") and preference ("3", after the parseable "2")
entries are all restored. -/
theorem C6_corruption_tolerance_witness :
    dlookup (load_state SimpleRLLoop.init (FileRead.ok
        ⟨[(['a', 'b'], 5), (['1', '_', '2'], 3 / 10)],
         [(['1'], [(['2'], 1 / 5), (['3'], 2 / 5)])],
         [(['x'], 7), (['4'], 9)]⟩)).q_values (1, 2) = some (3 / 10)
    ∧ dlookup (load_state SimpleRLLoop.init (FileRead.ok
        ⟨[(['a', 'b'], 5), (['1', '_', '2'], 3 / 10)],
         [(['1'], [(['2'], 1 / 5), (['3'], 2 / 5)])],
         [(['x'], 7), (['4'], 9)]⟩)).item_popularity 4 = some 9
    ∧ dlookup (dgetD (load_state SimpleRLLoop.init (FileRead.ok
        ⟨[(['a', 'b'], 5), (['1', '_', '2'], 3 / 10)],
         [(['1'], [(['2'], 1 / 5), (['3'], 2 / 5)])],
         [(['x'], 7), (['4'], 9)]⟩)).user_preferences 1 []) 3 = some (2 / 5) :=
  ⟨(C6_corruption_tolerance
      ⟨[(['a', 'b'], 5), (['1', '_', '2'], 3 / 10)],
       [(['1'], [(['2'], 1 / 5), (['3'], 2 / 5)])],
       [(['x'], 7), (['4'], 9)]⟩ SimpleRLLoop.init (by decide) (by decide) (by decide)
      (by decide) (by decide) (by decide)
      (by intro kv hm; obtain rfl := List.mem_singleton.mp hm; decide)).1
      (['1', '_', '2'], 3 / 10) (List.mem_cons_of_mem _ (List.mem_cons_self _ _))
      1 2 (by decide),
   (C6_corruption_tolerance
      ⟨[(['a', 'b'], 5), (['1', '_', '2'], 3 / 10)],
       [(['1'], [(['2'], 1 / 5), (['3'], 2 / 5)])],
       [(['x'], 7), (['4'], 9)]⟩ SimpleRLLoop.init (by decide) (by decide) (by decide)
      (by decide) (by decide) (by decide)
      (by intro kv hm; obtain rfl := List.mem_singleton.mp hm; decide)).2.1
      (['4'], 9) (List.mem_cons_of_mem _ (List.mem_cons_self _ _)) 4 (by decide),
   (C6_corruption_tolerance
      ⟨[(['a', 'b'], 5), (['1', '_', '2'], 3 / 10)],
       [(['1'], [(['2'], 1 / 5), (['3'], 2 / 5)])],
       [(['x'], 7), (['4'], 9)]⟩ SimpleRLLoop.init (by decide) (by decide) (by decide)
      (by decide) (by decide) (by decide)
      (by intro kv hm; obtain rfl := List.mem_singleton.mp hm; decide)).2.2
      (['1'], [(['2'], 1 / 5), (['3'], 2 / 5)]) (List.mem_cons_self _ _) 1 (by decide)
      [(['2'], 1 / 5)] (['3'], 2 / 5) [] rfl
      (by intro e he; obtain rfl := List.mem_singleton.mp he; decide) 3 (by decide)⟩

end FoodRL
